import Mathlib

/-!
# Aurora Quest: indexing and retrieval engine

A shallow embedding of `api/upload.js` (tokenizer, chunker, ingestion) and
`api/chat.js` (retrieval), with the properties of the engine stated over it.

A JavaScript string is modelled by its sequence of UTF-16 code units, so that
`length`, `slice`, `split` and the regular expressions (none of which carries
the `u` flag) act on the same units as in the source.
-/

namespace AuroraQuest

/-! ## Strings -/

/-- A JavaScript string, as the list of its UTF-16 code units. -/
abbrev Str := List Nat

/-- The code units of an ASCII literal. -/
def lit (s : String) : Str := s.toList.map Char.toNat

/-- The class `\s` of a JavaScript regular expression, which is also the set
of characters `String.prototype.trim` removes (WhiteSpace and LineTerminator):
TAB, LF, VT, FF, CR, SP, NBSP, U+1680, U+2000..U+200A, LS, PS, U+202F, U+205F,
U+3000 and U+FEFF. -/
def isSpace (c : Nat) : Bool :=
  c == 9 || c == 10 || c == 11 || c == 12 || c == 13 || c == 32 || c == 160 ||
  c == 5760 || (8192 ≤ c && c ≤ 8202) || c == 8232 || c == 8233 || c == 8239 ||
  c == 8287 || c == 12288 || c == 65279

/-- The class `[\r\n]`. -/
def isLineBreak (c : Nat) : Bool := c == 13 || c == 10

/-- The class `\n`. -/
def isNewline (c : Nat) : Bool := c == 10

/-- The class `[a-z0-9]`. -/
def isLowerAlnum (c : Nat) : Bool := (97 ≤ c && c ≤ 122) || (48 ≤ c && c ≤ 57)

/-- The class `[^a-z0-9\s]`. -/
def isOther (c : Nat) : Bool := !(isLowerAlnum c || isSpace c)

/-- The method `s.trim()`. -/
def trim (s : Str) : Str := ((s.dropWhile isSpace).reverse.dropWhile isSpace).reverse

/-- Worker of `replaceRuns`; `inRun` tells that the previous unit matched. -/
def replaceRunsAux (p : Nat → Bool) (r : Str) : Bool → Str → Str
  | _, [] => []
  | inRun, c :: rest =>
    if p c then
      if inRun then replaceRunsAux p r true rest else r ++ replaceRunsAux p r true rest
    else c :: replaceRunsAux p r false rest

/-- The call `s.replace(/[p]+/g, r)`: every maximal run of units of the class
`p` is replaced by `r`. -/
def replaceRuns (p : Nat → Bool) (r : Str) (s : Str) : Str := replaceRunsAux p r false s

/-- The call `s.replace(/[p]/g, r)` for a one-unit replacement `r`: every unit
of the class `p` is replaced by `r`. -/
def replaceEach (p : Nat → Bool) (r : Nat) (s : Str) : Str :=
  s.map fun c => if p c then r else c

/-- Worker of `splitRuns`; `cur` is the piece being read and `inRun` tells
that the previous unit was a separator. -/
def splitRunsAux (p : Nat → Bool) : Str → Bool → Str → List Str
  | cur, _, [] => [cur]
  | cur, inRun, c :: rest =>
    if p c then
      if inRun then splitRunsAux p [] true rest else cur :: splitRunsAux p [] true rest
    else splitRunsAux p (cur ++ [c]) false rest

/-- The call `s.split(/[p]+/)`: the pieces of `s` between the maximal runs of
separators, the empty pieces before a leading and after a trailing run
included. -/
def splitRuns (p : Nat → Bool) (s : Str) : List Str := splitRunsAux p [] false s

/-- The call `xs.join(sep)`. -/
def joinWith (sep : Str) : List Str → Str
  | [] => []
  | [x] => x
  | x :: y :: rest => x ++ sep ++ joinWith sep (y :: rest)

/-! ## Tokenizer (`tokenize`, identical in `upload.js` and `chat.js`) -/

/-- The stop-word set of `tokenize`. -/
def stop : List Str :=
  ["the", "and", "a", "an", "of", "in", "on", "to", "is", "are", "for", "with", "that",
   "this", "it", "as", "by", "at", "from", "be", "or", "we", "you"].map lit

/-- The function `tokenize(text)`. The built-in `toLowerCase` is the parameter
`lower`: its action on non-ASCII text is fixed by the Unicode tables and not by
this repository. -/
def tokenize (lower : Str → Str) (text : Str) : List Str :=
  (((splitRuns isSpace
      (replaceEach isOther 32 (replaceRuns isLineBreak (lit " ") (lower text)))).map trim).filter
    fun s => decide (s.length > 2) && !(stop.contains s))

/-- The built-in `toLowerCase` on ASCII text: `A`..`Z` go to `a`..`z`. It is
what `lower` stands for at the ASCII inputs of the concrete evaluations. -/
def asciiLower (s : Str) : Str := s.map fun c => if 65 ≤ c ∧ c ≤ 90 then c + 32 else c

/-! ## Chunker (`chunkText` in `upload.js`) -/

/-- The constant `CHUNK_MAX_CHARS`. -/
def CHUNK_MAX_CHARS : Nat := 1200

/-- The loop `while (buf.length > maxChars) { chunks.push(buf.slice(0, maxChars).trim());
buf = buf.slice(maxChars); }` run for at most `fuel` tests of its condition;
`none` when the fuel is used up before the condition fails. The state is the
pair `(buf, chunks)`. -/
def sliceLoop (maxChars : Nat) : Nat → Str → List Str → Option (Str × List Str)
  | 0, _, _ => none
  | fuel + 1, buf, chunks =>
    if buf.length > maxChars then
      sliceLoop maxChars fuel (buf.drop maxChars) (chunks ++ [trim (buf.take maxChars)])
    else some (buf, chunks)

/-- The body of `for (const p of paras)` on the state `(buf, chunks)`. The
inner loop tests its condition at most `p.length + 1` times when
`maxChars ≥ 1`, which is the fuel it is given. -/
def chunkStep (maxChars : Nat) (buf : Str) (chunks : List Str) (p : Str) :
    Option (Str × List Str) :=
  if (buf ++ lit " " ++ p).length > maxChars then
    sliceLoop maxChars (p.length + 1) p (if buf ≠ [] then chunks ++ [trim buf] else chunks)
  else
    some (if buf ≠ [] then buf ++ lit "\n\n" ++ p else p, chunks)

/-- The loop `for (const p of paras)`. -/
def chunkLoop (maxChars : Nat) : List Str → Str → List Str → Option (Str × List Str)
  | [], buf, chunks => some (buf, chunks)
  | p :: ps, buf, chunks =>
    match chunkStep maxChars buf chunks p with
    | none => none
    | some (buf', chunks') => chunkLoop maxChars ps buf' chunks'

/-- The paragraphs of `chunkText`:
`text.split(/\n{1,}/).map(p => p.trim()).filter(Boolean)`. -/
def paragraphs (text : Str) : List Str :=
  ((splitRuns isNewline text).map trim).filter fun p => p ≠ []

/-- The function `chunkText(text, maxChars)`; `none` when the inner loop does
not terminate. -/
def chunkText (text : Str) (maxChars : Nat) : Option (List Str) :=
  match chunkLoop maxChars (paragraphs text) [] [] with
  | none => none
  | some (buf, chunks) => some (if buf ≠ [] then chunks ++ [trim buf] else chunks)

/-! ## Objects used as maps

`tf`, `vec` and `store.df` are plain objects, made by `{}` or by `JSON.parse`.
An object is modelled by the list of its own properties in insertion order.
(For keys that are canonical array indices JavaScript enumerates in numeric
order first; no operation below depends on the enumeration order, sums being
taken over exact numbers.) Such an object inherits from `Object.prototype`, and
`constructor` is the one property of `Object.prototype` whose name `tokenize`
can produce: reading `o["constructor"]` from an object without an own property
of that name yields the function `Object`. -/

/-- The own property `k` of an object, if there is one. -/
def getOwn {α : Type} : List (Str × α) → Str → Option α
  | [], _ => none
  | (k', v) :: rest, k => if k' = k then some v else getOwn rest k

/-- The result of the property read `o[k]`. -/
inductive Lookup (α : Type) where
  /-- an own property, with its value -/
  | own (v : α)
  /-- the inherited `Object.prototype.constructor`, the function `Object` -/
  | objectFn
  /-- the value `undefined` -/
  | undefined
  deriving DecidableEq

/-- The property read `o[k]`. -/
def getProp {α : Type} (o : List (Str × α)) (k : Str) : Lookup α :=
  match getOwn o k with
  | some v => .own v
  | none => if k = lit "constructor" then .objectFn else .undefined

/-- The assignment `o[k] = v`: an own property keeps its place, a new one is
added last. -/
def setProp {α : Type} : List (Str × α) → Str → α → List (Str × α)
  | [], k, v => [(k, v)]
  | (k', v') :: rest, k, v =>
    if k' = k then (k', v) :: rest else (k', v') :: setProp rest k v

/-- A value held by a counting object (`tf` before it is normalised, `df`). -/
inductive Cell where
  /-- a number, always a count -/
  | count (n : Nat)
  /-- the string `"function Object() { [native code] }"` followed by `ones`
  characters `1`: what `(o[k] || 0) + 1` makes of the inherited function
  `Object`, and then of that string -/
  | fnText (ones : Nat)
  deriving DecidableEq

/-- The statement `o[k] = (o[k] || 0) + 1`. A number `n` becomes `n + 1` (for
`n = 0` through `0 || 0`), `undefined` becomes `1`; the function `Object` and
the non-empty strings are truthy, so `+` concatenates `"1"` to their text. -/
def bump (o : List (Str × Cell)) (k : Str) : List (Str × Cell) :=
  setProp o k
    (match getProp o k with
     | .own (.count n) => .count (n + 1)
     | .own (.fnText ones) => .fnText (ones + 1)
     | .objectFn => .fnText 1
     | .undefined => .count 1)

/-- The call `Math.max(...values, 1)`; `none` is `NaN`, the result as soon as
one value is a string that is not a numeral. -/
def mathMaxWithOne : List Cell → Option Nat
  | [] => some 1
  | .count n :: rest => (mathMaxWithOne rest).map (max n)
  | .fnText _ :: _ => none

/-- The statement `seenTerms.add(t)` on a `Set`, kept in insertion order. -/
def setAdd (s : List Str) (t : Str) : List Str := if t ∈ s then s else s ++ [t]

/-! ## The store (`vectorstore.json`) -/

/-- A stored term frequency. -/
inductive TfVal where
  /-- a number -/
  | num (q : ℚ)
  /-- the value `null`, which is how `JSON.stringify` writes `NaN` -/
  | null
  deriving DecidableEq

/-- An element of `store.chunks`. -/
structure ChunkRecord where
  /-- the chunk id -/
  id : Str
  /-- the id of the owning document -/
  docId : Str
  /-- the raw chunk text -/
  text : Str
  /-- the normalised term frequencies -/
  tf : List (Str × TfVal)
  deriving DecidableEq

/-- A value of `store.docs`. -/
structure DocumentMeta where
  /-- the document id -/
  id : Str
  /-- the display name -/
  name : Str
  /-- the number of chunks -/
  chunkCount : Nat
  /-- the ingestion timestamp -/
  uploadedAt : Str
  deriving DecidableEq

/-- The persisted record `{ docs, chunks, df, totalChunks }`. -/
structure Store where
  /-- document id to metadata -/
  docs : List (Str × DocumentMeta)
  /-- the chunk records, in insertion order -/
  chunks : List ChunkRecord
  /-- term to document frequency -/
  df : List (Str × Cell)
  /-- the chunk counter -/
  totalChunks : Nat
  deriving DecidableEq

/-- The empty store `{ docs: {}, chunks: [], df: {}, totalChunks: 0 }` that
`loadStore` falls back to. -/
def emptyStore : Store := { docs := [], chunks := [], df := [], totalChunks := 0 }

/-! ## Ingestion (`handler` in `upload.js`) -/

namespace Upload

/-- The loop `for (const t of tokens) { tf[t] = (tf[t] || 0) + 1; ... }` on `tf = {}`. -/
def rawTf (tokens : List Str) : List (Str × Cell) := tokens.foldl bump []

/-- The same loop on `seenTerms = new Set()`. -/
def seenTerms (tokens : List Str) : List Str := tokens.foldl setAdd []

/-- The statements `const maxTf = Math.max(...Object.values(tf), 1);
for (const k in tf) tf[k] = tf[k] / maxTf;`, read back from the saved store: a
quotient that is `NaN` is saved as `null`. -/
def normalise (tf : List (Str × Cell)) : List (Str × TfVal) :=
  tf.map fun kv =>
    (kv.1, match kv.2, mathMaxWithOne (tf.map Prod.snd) with
           | .count n, some m => TfVal.num ((n : ℚ) / (m : ℚ))
           | _, _ => TfVal.null)

/-- The body of `for (let i = 0; i < chunks.length; i++)` for the chunk text
`chunkText`, whose id `uuidv4()` returns `chunkId`. -/
def indexChunk (lower : Str → Str) (docId : Str) (store : Store) (chunkId : Str)
    (chunkText : Str) : Store :=
  { store with
    df := (seenTerms (tokenize lower chunkText)).foldl bump store.df
    chunks := store.chunks ++
      [{ id := chunkId, docId := docId, text := chunkText,
         tf := normalise (rawTf (tokenize lower chunkText)) }]
    totalChunks := store.totalChunks + 1 }

/-- The loop `for (let i = 0; i < chunks.length; i++)`, from index `i` on; the
`n`-th call of `uuidv4()` in the request returns `uuid n`. -/
def indexChunks (lower : Str → Str) (docId : Str) (uuid : Nat → Str) :
    Nat → List Str → Store → Store
  | _, [], store => store
  | i, c :: rest, store =>
    indexChunks lower docId uuid (i + 1) rest (indexChunk lower docId store (uuid (i + 1)) c)

/-- The response of the upload handler. -/
inductive Response where
  /-- the response `res.status(status).json({ error })` -/
  | error (status : Nat) (message : String)
  /-- the response `res.json({ id, name, chunks })` -/
  | ok (id : Str) (name : Str) (chunks : Nat)
  deriving DecidableEq

/-- The `try` block of `handler` from the extracted `text` on, with the loaded
`store`: the response and the store as saved (the loaded one when nothing is
saved). The collaborators are parameters: `uuid n` is what the `n`-th call of
`uuidv4()` returns, `name` is the file name and `now` the timestamp. `none`
when `chunkText` does not return. The call of `fs.writeFileSync` in `saveStore`
is taken to write the file; `Upload.handlerOn` has the case where it throws. -/
def handler (lower : Str → Str) (uuid : Nat → Str) (name : Str) (now : Str) (store : Store)
    (text : Str) : Option (Response × Store) :=
  if text = [] ∨ (trim text).length = 0 then
    some (.error 400 "No text found in file", store)
  else
    match chunkText text CHUNK_MAX_CHARS with
    | none => none
    | some chunks =>
      let store1 := indexChunks lower (uuid 0) uuid 0 chunks store
      some (.ok (uuid 0) name chunks.length,
        { store1 with
          docs := setProp store1.docs (uuid 0)
            { id := uuid 0, name := name, chunkCount := chunks.length, uploadedAt := now } })

end Upload

/-- The stores built from the empty store by ingestions. -/
inductive Reachable (lower : Str → Str) : Store → Prop where
  /-- the empty store -/
  | empty : Reachable lower emptyStore
  /-- one more request to the upload handler -/
  | ingest (uuid : Nat → Str) (name now text : Str) (store store' : Store)
      (resp : Upload.Response) :
      Reachable lower store →
      Upload.handler lower uuid name now store text = some (resp, store') →
      Reachable lower store'

/-! ## Retrieval (`chat.js`)

Numbers are real numbers, with `none` for `NaN`; no infinite value arises, the
quotients having a positive denominator. -/

/-- A JavaScript number: a real number, or `NaN`. -/
abbrev Num := Option ℝ

/-- The product `a * b`. -/
def Num.mul : Num → Num → Num
  | some x, some y => some (x * y)
  | _, _ => none

/-- The sum `a + b`. -/
def Num.add : Num → Num → Num
  | some x, some y => some (x + y)
  | _, _ => none

/-- The quotient `a / b`, for a divisor that is not zero. -/
noncomputable def Num.div : Num → Num → Num
  | some x, some y => some (x / y)
  | _, _ => none

namespace Chat

/-- The number `N = Math.max(1, store.totalChunks || store.chunks.length)`. -/
def chunkTotal (store : Store) : Nat :=
  max 1 (if store.totalChunks ≠ 0 then store.totalChunks else store.chunks.length)

/-- The statements `const df = store.df[term] || 0; const idf = Math.log(N / (1 + df));`
shared by `computeQueryTfIdf` and `computeChunkTfIdfVec`. When `store.df[term]`
is a string or the function `Object`, `1 + df` is a string that is not a
numeral and the quotient is `NaN`. -/
noncomputable def idf (store : Store) (term : Str) : Num :=
  match getProp store.df term with
  | .own (.count n) => some (Real.log ((chunkTotal store : ℝ) / (1 + (n : ℝ))))
  | .undefined => some (Real.log ((chunkTotal store : ℝ) / (1 + 0)))
  | _ => none

/-- The function `computeQueryTfIdf(tokens, store)`. -/
noncomputable def computeQueryTfIdf (tokens : List Str) (store : Store) : List (Str × Num) :=
  (Upload.rawTf tokens).map fun kv =>
    (kv.1, Num.mul
      (match kv.2, mathMaxWithOne ((Upload.rawTf tokens).map Prod.snd) with
       | .count n, some m => some ((n : ℝ) / (m : ℝ))
       | _, _ => none)
      (idf store kv.1))

/-- The number a stored term frequency is in a product: `null` counts as `0`. -/
def tfNumber : TfVal → ℝ
  | .num q => (q : ℝ)
  | .null => 0

/-- The function `computeChunkTfIdfVec(tfMap, store)`. -/
noncomputable def computeChunkTfIdfVec (tfMap : List (Str × TfVal)) (store : Store) :
    List (Str × Num) :=
  tfMap.map fun kv => (kv.1, Num.mul (some (tfNumber kv.2)) (idf store kv.1))

/-- The function `dotProduct(a, b)`, from the running `sum` on: `b[k]` is
truthy when it is a number other than `0` and when it is the inherited function
`Object`, with which the product is `NaN`. -/
noncomputable def dotProductFrom (b : List (Str × Num)) : Num → List (Str × Num) → Num
  | sum, [] => sum
  | sum, (k, x) :: rest =>
    match getProp b k with
    | .own (some y) =>
      if y ≠ 0 then dotProductFrom b (Num.add sum (Num.mul x (some y))) rest
      else dotProductFrom b sum rest
    | .own none => dotProductFrom b sum rest
    | .objectFn => dotProductFrom b (Num.add sum none) rest
    | .undefined => dotProductFrom b sum rest

/-- The function `dotProduct(a, b)`. -/
noncomputable def dotProduct (a b : List (Str × Num)) : Num := dotProductFrom b (some 0) a

/-- The function `norm(a)`. -/
noncomputable def norm (a : List (Str × Num)) : Num :=
  match a.foldl (fun s kv => Num.add s (Num.mul kv.2 kv.2)) (some 0) with
  | some s => some (Real.sqrt s + 1e-10)
  | none => none

/-- An element of `scored`. -/
structure Scored where
  /-- the cosine score -/
  score : ℝ
  /-- the chunk text -/
  text : Str
  /-- the id of the owning document -/
  docId : Str

/-- The element pushed for one chunk:
`{ score: isFinite(score) ? score : 0, text: chunk.text, docId: chunk.docId }`. -/
noncomputable def scoreChunk (qVec : List (Str × Num)) (store : Store) (chunk : ChunkRecord) :
    Scored :=
  { score :=
      match Num.div (dotProduct qVec (computeChunkTfIdfVec chunk.tf store))
          (Num.mul (norm qVec) (norm (computeChunkTfIdfVec chunk.tf store))) with
      | some s => s
      | none => 0
    text := chunk.text
    docId := chunk.docId }

/-- The test `Array.isArray(docs) && docs.length > 0 && !docs.includes(chunk.docId)`
that skips a chunk. -/
def skipped (docs : Option (List Str)) (chunk : ChunkRecord) : Bool :=
  match docs with
  | none => false
  | some ds => decide (ds.length > 0) && !(ds.contains chunk.docId)

/-- The response of the chat handler. -/
inductive Response where
  /-- the response `res.status(status).json({ error })` -/
  | error (status : Nat) (message : String)
  /-- the response `{ answer }` with status 200 -/
  | answer (text : String)
  /-- the response `{ answer, rawScores }`, of which `rawScores` is kept: the
  `answer` is a rendering of the same list -/
  | sources (rawScores : List Scored)

/-- The `try` block of `handler` on the loaded `store` and the fields of the
request body: `message` (a string when present), `topK` (default 3) and `docs`
(an array when present). The stable `scored.sort((a, b) => b.score - a.score)`
is an insertion sort by non-increasing score. -/
noncomputable def handler (lower : Str → Str) (store : Store) (message : Option Str)
    (topK : Option Nat) (docs : Option (List Str)) : Response :=
  if store.chunks.length = 0 then
    .error 400 "No documents indexed yet. Upload a PDF first."
  else
    match message with
    | none => .error 400 "No message provided"
    | some message =>
      if message = [] then .error 400 "No message provided"
      else if (tokenize lower message).length = 0 then
        .answer "Please ask using more keywords."
      else
        let qVec := computeQueryTfIdf (tokenize lower message) store
        let scored := (store.chunks.filter fun chunk => !(skipped docs chunk)).map
          (scoreChunk qVec store)
        let top := ((scored.insertionSort fun a b => a.score ≥ b.score).take
          (topK.getD 3)).filter fun s => decide (s.score > 0)
        if top.length = 0 then .answer "No relevant content found in uploaded materials."
        else .sources (top.take (topK.getD 3))

end Chat

/-! ## Notions used by the statements -/

/-- Deleting all whitespace from a string. -/
def squeeze (s : Str) : Str := s.filter fun c => !isSpace c

/-- What `tokenize` lets through: more than two units, all of `[a-z0-9]`, and
not a stop word. -/
def IsTerm (t : Str) : Prop := 2 < t.length ∧ (∀ c ∈ t, isLowerAlnum c = true) ∧ t ∉ stop

/-- The cell that holds the count `n` in a counting object: none for `0`. -/
def countCell : Nat → Option Cell
  | 0 => none
  | n + 1 => some (.count (n + 1))

/-- The number of chunk records whose `tf` has the key `t`. -/
def tfFreq (chunks : List ChunkRecord) (t : Str) : Nat :=
  chunks.countP fun c => (getOwn c.tf t).isSome

/-- What ingestion maintains: the counter is the number of chunk records, the
document frequency of a term other than `constructor` is the number of chunk
records whose `tf` has it, and the `tf` of a record is the one computed from
its text. -/
structure WellFormed (lower : Str → Str) (s : Store) : Prop where
  /-- the counter -/
  total : s.totalChunks = s.chunks.length
  /-- the document frequencies -/
  freq : ∀ t, t ≠ lit "constructor" → getOwn s.df t = countCell (tfFreq s.chunks t)
  /-- the term frequencies -/
  terms : ∀ c ∈ s.chunks, c.tf = Upload.normalise (Upload.rawTf (tokenize lower c.text))

/-- The store an upload request leaves behind. -/
def Upload.stored (lower : Str → Str) (uuid : Nat → Str) (name now : Str) (store : Store)
    (text : Str) : Store :=
  match Upload.handler lower uuid name now store text with
  | some (_, store') => store'
  | none => store

/-! ## Example stores -/

/-- The store after the upload of a file with the text `zephyrquartz alpha`
into the empty store. -/
def oneChunkStore : Store :=
  Upload.stored asciiLower (fun n => [n]) (lit "a.txt") (lit "t0") emptyStore
    (lit "zephyrquartz alpha")

/-- The one chunk record of `oneChunkStore`. -/
def oneChunkRecord : ChunkRecord :=
  { id := [1], docId := [0], text := lit "zephyrquartz alpha",
    tf := Upload.normalise (Upload.rawTf (tokenize asciiLower (lit "zephyrquartz alpha"))) }

/-- The store after the upload of a file with the text `zephyrquartz` and then
of a file with the text `alpha beta` into the empty store. -/
def twoChunkStore : Store :=
  Upload.stored asciiLower (fun n => [n + 2]) (lit "b.txt") (lit "t1")
    (Upload.stored asciiLower (fun n => [n]) (lit "a.txt") (lit "t0") emptyStore
      (lit "zephyrquartz"))
    (lit "alpha beta")

/-- The store after the upload of a file with the text
`alpha constructor alpha` into the empty store. -/
def constructorStore : Store :=
  Upload.stored asciiLower (fun n => [n]) (lit "a.txt") (lit "t0") emptyStore
    (lit "alpha constructor alpha")

/-- The store after a second upload of the same text. -/
def constructorStoreTwice : Store :=
  Upload.stored asciiLower (fun n => [n + 2]) (lit "a.txt") (lit "t1") constructorStore
    (lit "alpha constructor alpha")

/-- The number of chunks of an uploaded text that hold the token `t`; none
when the handler rejects the text as blank. -/
def chunksWith (lower : Str → Str) (text : Str) (t : Str) : Nat :=
  if text = [] ∨ (trim text).length = 0 then 0
  else
    match chunkText text CHUNK_MAX_CHARS with
    | some chunks => chunks.countP fun c => decide (t ∈ tokenize lower c)
    | none => 0

/-! ## The arrays of the chat handler -/

/-- The array `scored` of the chat handler before it is sorted: one element
per chunk that the document filter does not skip, in the order of `store.chunks`. -/
noncomputable def Chat.scoredOf (lower : Str → Str) (store : Store) (message : Str)
    (docs : Option (List Str)) : List Chat.Scored :=
  (store.chunks.filter fun chunk => !(Chat.skipped docs chunk)).map
    (Chat.scoreChunk (Chat.computeQueryTfIdf (tokenize lower message) store) store)

/-- The array `top` of the chat handler:
`scored.sort(...).slice(0, topK).filter(s => s.score > 0)`. -/
noncomputable def Chat.topOf (lower : Str → Str) (store : Store) (message : Str)
    (topK : Option Nat) (docs : Option (List Str)) : List Chat.Scored :=
  (((Chat.scoredOf lower store message docs).insertionSort fun a b => a.score ≥ b.score).take
    (topK.getD 3)).filter fun s => decide (s.score > 0)

/-! ## The persisted record and `loadStore` -/

/-- The value `JSON.parse` returns when the file holds a JSON object: each of
the four fields of an index is present, with the type it has in an index, or
missing (`undefined` when read). -/
structure Loaded where
  /-- the field `docs` -/
  docs : Option (List (Str × DocumentMeta))
  /-- the field `chunks` -/
  chunks : Option (List ChunkRecord)
  /-- the field `df` -/
  df : Option (List (Str × Cell))
  /-- the field `totalChunks` -/
  totalChunks : Option Nat
  deriving DecidableEq

/-- A store as a loaded value. -/
def Loaded.ofStore (s : Store) : Loaded :=
  { docs := some s.docs, chunks := some s.chunks, df := some s.df,
    totalChunks := some s.totalChunks }

/-- The state of the file `vectorstore.json`. -/
inductive Record where
  /-- the file is absent or cannot be read: `fs.readFileSync` throws -/
  | unreadable
  /-- the content is not valid JSON: `JSON.parse` throws -/
  | notJson
  /-- the content is a JSON object with these fields -/
  | object (v : Loaded)
  deriving DecidableEq

/-- The function `loadStore()` on the state of the file: the parsed value, and
the empty store when reading or parsing throws. -/
def loadStore : Record → Loaded
  | .unreadable => Loaded.ofStore emptyStore
  | .notJson => Loaded.ofStore emptyStore
  | .object v => v

namespace Upload

/-- The body of the chunk loop on a loaded value; `none` when a `TypeError` is
thrown: `store.df[term]` with `store.df` undefined, which is evaluated for the
first seen term, and `store.chunks.push` with `store.chunks` undefined. The
counter is `(store.totalChunks || 0) + 1`. -/
def indexChunkLoaded (lower : Str → Str) (docId : Str) (s : Loaded) (chunkId : Str)
    (chunkText : Str) : Option Loaded :=
  match (if seenTerms (tokenize lower chunkText) = [] then some s.df
         else s.df.map fun df => some ((seenTerms (tokenize lower chunkText)).foldl bump df)) with
  | none => none
  | some df' =>
    match s.chunks with
    | none => none
    | some cs =>
      some { docs := s.docs
             chunks := some (cs ++
               [{ id := chunkId, docId := docId, text := chunkText,
                  tf := normalise (rawTf (tokenize lower chunkText)) }])
             df := df'
             totalChunks := some (s.totalChunks.getD 0 + 1) }

/-- The chunk loop on a loaded value, from index `i` on. -/
def indexChunksLoaded (lower : Str → Str) (docId : Str) (uuid : Nat → Str) :
    Nat → List Str → Loaded → Option Loaded
  | _, [], s => some s
  | i, c :: rest, s =>
    match indexChunkLoaded lower docId s (uuid (i + 1)) c with
    | none => none
    | some s' => indexChunksLoaded lower docId uuid (i + 1) rest s'

/-- What the upload handler answers. -/
inductive Reply where
  /-- a response of the `try` block -/
  | sent (resp : Response)
  /-- the response of the `catch` block for a `TypeError`: status 500 with the
  message of the error -/
  | typeError
  /-- the response of the `catch` block for an error thrown by
  `fs.writeFileSync` in `saveStore`: status 500 with the message of the error -/
  | saveFailed
  deriving DecidableEq

/-- What `fs.writeFileSync` does when `saveStore` calls it. -/
inductive WriteOutcome where
  /-- the file is written -/
  | written
  /-- the call throws (the path is a directory, the disk is full, ...) and
  leaves the file in the state `left` -/
  | failed (left : Record)
  deriving DecidableEq

/-- The `try` block of `handler` from the extracted `text` on, with the state
of the file: the reply and the state of the file afterwards. The text is tested
before `loadStore()` is called; the file is written by `saveStore` at the end
of the block only, and `write` tells what `fs.writeFileSync` does then: when it
throws, the `catch` block answers. `none` when `chunkText` does not return. -/
def handlerOn (lower : Str → Str) (uuid : Nat → Str) (name : Str) (now : Str)
    (write : WriteOutcome) (record : Record) (text : Str) : Option (Reply × Record) :=
  if text = [] ∨ (trim text).length = 0 then
    some (.sent (.error 400 "No text found in file"), record)
  else
    match chunkText text CHUNK_MAX_CHARS with
    | none => none
    | some chunks =>
      match indexChunksLoaded lower (uuid 0) uuid 0 chunks (loadStore record) with
      | none => some (.typeError, record)
      | some s =>
        match s.docs with
        | none => some (.typeError, record)
        | some ds =>
          match write with
          | .failed left => some (.saveFailed, left)
          | .written =>
            some (.sent (.ok (uuid 0) name chunks.length),
              .object { s with
                docs := some (setProp ds (uuid 0)
                  { id := uuid 0, name := name, chunkCount := chunks.length,
                    uploadedAt := now }) })

end Upload

namespace Chat

/-- What the chat handler answers. -/
inductive Reply where
  /-- a response of the `try` block -/
  | sent (resp : Response)
  /-- the response of the `catch` block for a `TypeError`: status 500 with the
  message of the error -/
  | typeError

/-- The `try` block of `handler` with the state of the file. The test
`!store || !store.chunks || store.chunks.length === 0` comes first; `store.df`
is first read by `computeQueryTfIdf`, for a query with a token, and
`store.totalChunks || store.chunks.length` is the chunk count when the counter
is missing. -/
noncomputable def handlerOn (lower : Str → Str) (record : Record) (message : Option Str)
    (topK : Option Nat) (docs : Option (List Str)) : Reply :=
  match (loadStore record).chunks with
  | none => .sent (.error 400 "No documents indexed yet. Upload a PDF first.")
  | some chunks =>
    if chunks.length = 0 then .sent (.error 400 "No documents indexed yet. Upload a PDF first.")
    else
      match message with
      | none => .sent (.error 400 "No message provided")
      | some message =>
        if message = [] then .sent (.error 400 "No message provided")
        else if (tokenize lower message).length = 0 then
          .sent (.answer "Please ask using more keywords.")
        else
          match (loadStore record).df with
          | none => .typeError
          | some df =>
            .sent (handler lower
              { docs := ((loadStore record).docs).getD [], chunks := chunks, df := df,
                totalChunks := ((loadStore record).totalChunks).getD 0 }
              (some message) topK docs)

end Chat

/-- A vector without `NaN`, given by its numbers. -/
def Chat.finite (l : List (Str × ℝ)) : List (Str × Num) := l.map fun kv => (kv.1, some kv.2)

/-- The store after three uploads into the empty store: `zephyrquartz alpha`
as document `[0]`, `beta gamma` as document `[2]` and `delta epsilon` as
document `[4]`. -/
def threeChunkStore : Store :=
  Upload.stored asciiLower (fun n => [n + 4]) (lit "c.txt") (lit "t2")
    (Upload.stored asciiLower (fun n => [n + 2]) (lit "b.txt") (lit "t1")
      (Upload.stored asciiLower (fun n => [n]) (lit "a.txt") (lit "t0") emptyStore
        (lit "zephyrquartz alpha"))
      (lit "beta gamma"))
    (lit "delta epsilon")


/-! ## Properties of the string operations -/

theorem trim_subset (s : Str) : ∀ c ∈ trim s, c ∈ s := by
  intro c hc
  unfold trim at hc
  rw [List.mem_reverse] at hc
  have h1 := (List.dropWhile_sublist isSpace).subset hc
  rw [List.mem_reverse] at h1
  exact (List.dropWhile_sublist isSpace).subset h1

theorem trim_length_le (s : Str) : (trim s).length ≤ s.length := by
  unfold trim
  rw [List.length_reverse]
  calc ((s.dropWhile isSpace).reverse.dropWhile isSpace).length
      ≤ (s.dropWhile isSpace).reverse.length := (List.dropWhile_sublist isSpace).length_le
    _ = (s.dropWhile isSpace).length := List.length_reverse _
    _ ≤ s.length := (List.dropWhile_sublist isSpace).length_le

theorem trim_eq_nil_of_spaces (s : Str) (h : ∀ c ∈ s, isSpace c = true) : trim s = [] := by
  unfold trim
  have : s.dropWhile isSpace = [] := List.dropWhile_eq_nil_iff.mpr h
  simp [this]

theorem squeeze_dropWhile (s : Str) : squeeze (s.dropWhile isSpace) = squeeze s := by
  induction s with
  | nil => rfl
  | cons c rest ih =>
    by_cases hc : isSpace c = true
    · simp only [List.dropWhile_cons, hc, if_true, ih]
      simp [squeeze, hc]
    · simp [List.dropWhile_cons, hc]

theorem squeeze_reverse (s : Str) : squeeze s.reverse = (squeeze s).reverse := by
  simp [squeeze, List.filter_reverse]

theorem squeeze_trim (s : Str) : squeeze (trim s) = squeeze s := by
  unfold trim
  rw [squeeze_reverse, squeeze_dropWhile, squeeze_reverse, List.reverse_reverse,
    squeeze_dropWhile]

theorem squeeze_append (a b : Str) : squeeze (a ++ b) = squeeze a ++ squeeze b := by
  simp [squeeze]

theorem squeeze_eq_nil_of_spaces (s : Str) (h : ∀ c ∈ s, isSpace c = true) : squeeze s = [] := by
  simp only [squeeze, List.filter_eq_nil_iff]
  intro c hc
  simp [h c hc]

theorem trim_of_no_space (s : Str) (h : ∀ c ∈ s, isSpace c = false) : trim s = s := by
  have h1 : ∀ l : Str, (∀ c ∈ l, isSpace c = false) → l.dropWhile isSpace = l := by
    intro l hl
    cases l with
    | nil => rfl
    | cons c rest => simp [List.dropWhile_cons, hl c (List.mem_cons_self _ _)]
  unfold trim
  rw [h1 s h, h1 s.reverse (fun c hc => h c (List.mem_reverse.mp hc)), List.reverse_reverse]

theorem splitRunsAux_mem (p : Nat → Bool) (s : Str) :
    ∀ (cur : Str) (inRun : Bool), ∀ piece ∈ splitRunsAux p cur inRun s,
      ∀ c ∈ piece, c ∈ cur ∨ (c ∈ s ∧ p c = false) := by
  induction s with
  | nil =>
    intro cur inRun piece hp c hc
    simp only [splitRunsAux, List.mem_singleton] at hp
    subst hp
    exact Or.inl hc
  | cons d rest ih =>
    intro cur inRun piece hp c hc
    unfold splitRunsAux at hp
    by_cases hd : p d = true
    · rw [if_pos hd] at hp
      have key : piece = cur ∨ piece ∈ splitRunsAux p [] true rest := by
        cases inRun with
        | true => exact Or.inr (by simpa using hp)
        | false => simpa using hp
      rcases key with h | h
      · subst h; exact Or.inl hc
      · rcases ih [] true piece h c hc with h' | ⟨h1, h2⟩
        · simp at h'
        · exact Or.inr ⟨List.mem_cons_of_mem _ h1, h2⟩
    · rw [if_neg hd] at hp
      rcases ih (cur ++ [d]) false piece hp c hc with h' | ⟨h1, h2⟩
      · rcases List.mem_append.mp h' with h'' | h''
        · exact Or.inl h''
        · simp only [List.mem_singleton] at h''
          subst h''
          exact Or.inr ⟨List.mem_cons_self _ _, by simpa using hd⟩
      · exact Or.inr ⟨List.mem_cons_of_mem _ h1, h2⟩

theorem splitRuns_mem (p : Nat → Bool) (s : Str) :
    ∀ piece ∈ splitRuns p s, ∀ c ∈ piece, c ∈ s ∧ p c = false := by
  intro piece hp c hc
  rcases splitRunsAux_mem p s [] false piece hp c hc with h | h
  · simp at h
  · exact h

theorem squeeze_cons_space (c : Nat) (s : Str) (h : isSpace c = true) :
    squeeze (c :: s) = squeeze s := by
  simp [squeeze, h]

theorem squeeze_splitRunsAux (p : Nat → Bool) (hp : ∀ c, p c = true → isSpace c = true)
    (s : Str) : ∀ (cur : Str) (inRun : Bool), (inRun = true → cur = []) →
      squeeze (splitRunsAux p cur inRun s).flatten = squeeze (cur ++ s) := by
  induction s with
  | nil =>
    intro cur inRun _
    simp [splitRunsAux]
  | cons d rest ih =>
    intro cur inRun hrun
    unfold splitRunsAux
    by_cases hd : p d = true
    · rw [if_pos hd]
      have hrest := ih [] true (fun _ => rfl)
      cases inRun with
      | true =>
        rw [hrun rfl, if_pos rfl, hrest]
        simp only [List.nil_append]
        exact (squeeze_cons_space d rest (hp d hd)).symm
      | false =>
        simp only [Bool.false_eq_true, if_false, List.flatten_cons]
        rw [squeeze_append, hrest, squeeze_append cur, squeeze_cons_space d rest (hp d hd)]
        rfl
    · rw [if_neg hd, ih (cur ++ [d]) false (by simp)]
      simp

theorem squeeze_splitRuns (p : Nat → Bool) (hp : ∀ c, p c = true → isSpace c = true)
    (s : Str) : squeeze (splitRuns p s).flatten = squeeze s := by
  unfold splitRuns
  rw [squeeze_splitRunsAux p hp s [] false (by simp)]
  simp

theorem squeeze_flatten_map_trim (l : List Str) :
    squeeze (l.map trim).flatten = squeeze l.flatten := by
  induction l with
  | nil => rfl
  | cons x rest ih =>
    simp only [List.map_cons, List.flatten_cons, squeeze_append, ih, squeeze_trim]

theorem flatten_filter_ne_nil (l : List Str) :
    (l.filter fun p => p ≠ []).flatten = l.flatten := by
  induction l with
  | nil => rfl
  | cons x rest ih =>
    by_cases hx : x = []
    · subst hx
      simpa [List.filter_cons] using ih
    · simpa [List.filter_cons, hx] using ih

theorem isNewline_isSpace (c : Nat) (h : isNewline c = true) : isSpace c = true := by
  simp only [isNewline, beq_iff_eq] at h
  subst h
  decide

theorem squeeze_paragraphs (text : Str) : squeeze (paragraphs text).flatten = squeeze text := by
  unfold paragraphs
  rw [flatten_filter_ne_nil, squeeze_flatten_map_trim, squeeze_splitRuns _ isNewline_isSpace]

theorem paragraphs_of_spaces (text : Str) (h : ∀ c ∈ text, isSpace c = true) :
    paragraphs text = [] := by
  unfold paragraphs
  rw [List.filter_eq_nil_iff]
  intro p hp
  rcases List.mem_map.mp hp with ⟨piece, hpiece, rfl⟩
  have : trim piece = [] :=
    trim_eq_nil_of_spaces piece fun c hc => h c (splitRuns_mem _ _ piece hpiece c hc).1
  simp [this]

/-! ## Properties of the chunker -/

theorem squeeze_flatten_snoc (chunks : List Str) (a b : Str) :
    squeeze ((chunks ++ [a]).flatten ++ b) = squeeze (chunks.flatten ++ (a ++ b)) := by
  simp [squeeze]

/-- With `maxChars ≥ 1` and more fuel than the buffer is long, the inner loop
ends; it keeps the non-blank content, leaves a buffer of at most `maxChars`
units and adds only chunks of at most `maxChars` units. -/
theorem sliceLoop_spec (maxChars : Nat) (hm : 1 ≤ maxChars) :
    ∀ (fuel : Nat) (buf : Str) (chunks : List Str), buf.length < fuel →
      ∃ buf' chunks', sliceLoop maxChars fuel buf chunks = some (buf', chunks') ∧
        squeeze (chunks'.flatten ++ buf') = squeeze (chunks.flatten ++ buf) ∧
        buf'.length ≤ maxChars ∧
        ∀ b, maxChars ≤ b → (∀ c ∈ chunks, c.length ≤ b) → ∀ c ∈ chunks', c.length ≤ b := by
  intro fuel
  induction fuel with
  | zero => intro buf chunks h; omega
  | succ fuel ih =>
    intro buf chunks hfuel
    unfold sliceLoop
    by_cases hlen : buf.length > maxChars
    · rw [if_pos hlen]
      have hdrop : (buf.drop maxChars).length < fuel := by
        rw [List.length_drop]; omega
      obtain ⟨buf', chunks', h1, h2, h3, h4⟩ :=
        ih (buf.drop maxChars) (chunks ++ [trim (buf.take maxChars)]) hdrop
      refine ⟨buf', chunks', h1, ?_, h3, ?_⟩
      · rw [h2, squeeze_flatten_snoc, squeeze_append, squeeze_append, squeeze_trim,
          ← squeeze_append (buf.take maxChars), List.take_append_drop, ← squeeze_append]
      · intro b hb hall
        apply h4 b hb
        intro c hc
        rcases List.mem_append.mp hc with hc | hc
        · exact hall c hc
        · simp only [List.mem_singleton] at hc
          subst hc
          calc (trim (buf.take maxChars)).length ≤ (buf.take maxChars).length := trim_length_le _
            _ ≤ maxChars := by rw [List.length_take]; omega
            _ ≤ b := hb
    · rw [if_neg hlen]
      exact ⟨buf, chunks, rfl, rfl, by omega, fun b _ hall => hall⟩

theorem lit_space_length : (lit " ").length = 1 := by decide

theorem lit_blank_line_length : (lit "\n\n").length = 2 := by decide

theorem lit_blank_line_squeeze : squeeze (lit "\n\n") = [] := by decide

/-- One paragraph: with `maxChars ≥ 1` the loop body ends, keeps the non-blank
content, and keeps buffer and chunks within `maxChars + 1` units. -/
theorem chunkStep_spec (maxChars : Nat) (hm : 1 ≤ maxChars) (buf : Str) (chunks : List Str)
    (p : Str) (hbuf : buf.length ≤ maxChars + 1)
    (hchunks : ∀ c ∈ chunks, c.length ≤ maxChars + 1) :
    ∃ buf' chunks', chunkStep maxChars buf chunks p = some (buf', chunks') ∧
      squeeze (chunks'.flatten ++ buf') = squeeze (chunks.flatten ++ buf ++ p) ∧
      buf'.length ≤ maxChars + 1 ∧ ∀ c ∈ chunks', c.length ≤ maxChars + 1 := by
  unfold chunkStep
  by_cases hlen : (buf ++ lit " " ++ p).length > maxChars
  · rw [if_pos hlen]
    obtain ⟨buf', chunks', h1, h2, h3, h4⟩ :=
      sliceLoop_spec maxChars hm (p.length + 1) p
        (if buf ≠ [] then chunks ++ [trim buf] else chunks) (Nat.lt_succ_self _)
    refine ⟨buf', chunks', h1, ?_, by omega, ?_⟩
    · rw [h2]
      by_cases hb : buf = []
      · subst hb; simp
      · rw [if_pos hb, squeeze_flatten_snoc, squeeze_append, squeeze_append, squeeze_trim,
          ← squeeze_append, ← squeeze_append, List.append_assoc]
    · apply h4 (maxChars + 1) (by omega)
      by_cases hb : buf = []
      · simpa [hb] using hchunks
      · rw [if_pos hb]
        intro c hc
        rcases List.mem_append.mp hc with hc | hc
        · exact hchunks c hc
        · simp only [List.mem_singleton] at hc
          subst hc
          exact le_trans (trim_length_le _) hbuf
  · rw [if_neg hlen]
    simp only [List.length_append, lit_space_length] at hlen
    refine ⟨_, chunks, rfl, ?_, ?_, hchunks⟩
    · by_cases hb : buf = []
      · subst hb; simp
      · rw [if_pos hb]
        simp only [squeeze_append, lit_blank_line_squeeze, List.append_nil, List.nil_append,
          List.append_assoc]
    · by_cases hb : buf = []
      · subst hb; simp; omega
      · rw [if_pos hb]
        simp only [List.length_append, lit_blank_line_length]
        omega

theorem chunkLoop_spec (maxChars : Nat) (hm : 1 ≤ maxChars) (paras : List Str) :
    ∀ (buf : Str) (chunks : List Str), buf.length ≤ maxChars + 1 →
      (∀ c ∈ chunks, c.length ≤ maxChars + 1) →
      ∃ buf' chunks', chunkLoop maxChars paras buf chunks = some (buf', chunks') ∧
        squeeze (chunks'.flatten ++ buf') = squeeze (chunks.flatten ++ buf ++ paras.flatten) ∧
        buf'.length ≤ maxChars + 1 ∧ ∀ c ∈ chunks', c.length ≤ maxChars + 1 := by
  induction paras with
  | nil =>
    intro buf chunks hbuf hchunks
    exact ⟨buf, chunks, rfl, by simp, hbuf, hchunks⟩
  | cons p ps ih =>
    intro buf chunks hbuf hchunks
    obtain ⟨buf1, chunks1, h1, h2, h3, h4⟩ := chunkStep_spec maxChars hm buf chunks p hbuf hchunks
    obtain ⟨buf2, chunks2, k1, k2, k3, k4⟩ := ih buf1 chunks1 h3 h4
    refine ⟨buf2, chunks2, ?_, ?_, k3, k4⟩
    · simp only [chunkLoop, h1, k1]
    · rw [k2, squeeze_append, h2, ← squeeze_append]
      simp

/-- With `maxChars ≥ 1`, `chunkText` returns, its chunks hold the non-blank
content of the text in order, and none is longer than `maxChars + 1`. -/
theorem chunkText_spec (text : Str) (maxChars : Nat) (hm : 1 ≤ maxChars) :
    ∃ chunks, chunkText text maxChars = some chunks ∧
      squeeze chunks.flatten = squeeze text ∧ ∀ c ∈ chunks, c.length ≤ maxChars + 1 := by
  obtain ⟨buf, chunks, h1, h2, h3, h4⟩ :=
    chunkLoop_spec maxChars hm (paragraphs text) [] [] (by simp) (by simp)
  have hres : chunkText text maxChars
      = some (if buf ≠ [] then chunks ++ [trim buf] else chunks) := by
    simp only [chunkText, h1]
  refine ⟨_, hres, ?_, ?_⟩
  · simp only [List.flatten_nil, List.nil_append, List.append_nil, squeeze_paragraphs] at h2
    rw [← h2]
    by_cases hb : buf = []
    · subst hb; simp
    · rw [if_pos hb, List.flatten_append, squeeze_append, squeeze_append]
      simp [squeeze_trim]
  · by_cases hb : buf = []
    · simpa [hb] using h4
    · rw [if_pos hb]
      intro c hc
      rcases List.mem_append.mp hc with hc | hc
      · exact h4 c hc
      · simp only [List.mem_singleton] at hc
        subst hc
        exact le_trans (trim_length_le _) h3

/-! ## Properties of the tokenizer -/

theorem isLowerAlnum_not_space (c : Nat) (h : isLowerAlnum c = true) : isSpace c = false := by
  simp only [isLowerAlnum, Bool.or_eq_true, Bool.and_eq_true, decide_eq_true_eq] at h
  simp only [isSpace, Bool.or_eq_false_iff, Bool.and_eq_false_iff, beq_eq_false_iff_ne,
    decide_eq_false_iff_not]
  omega

theorem replaceEach_isOther_mem (s : Str) :
    ∀ c ∈ replaceEach isOther 32 s, isLowerAlnum c = true ∨ isSpace c = true := by
  intro c hc
  rcases List.mem_map.mp hc with ⟨d, _, rfl⟩
  by_cases hd : isOther d = true
  · rw [if_pos hd]; exact Or.inr (by decide)
  · rw [if_neg hd]
    cases h : isLowerAlnum d with
    | true => exact Or.inl rfl
    | false => exact Or.inr (by simpa [isOther, h] using hd)

theorem tokenize_isTerm (lower : Str → Str) (text : Str) :
    ∀ t ∈ tokenize lower text, IsTerm t := by
  intro t ht
  unfold tokenize at ht
  rcases List.mem_filter.mp ht with ⟨hmem, hpred⟩
  simp only [Bool.and_eq_true, decide_eq_true_eq, Bool.not_eq_true', List.contains_eq_any_beq,
    List.any_eq_false, beq_iff_eq] at hpred
  rcases List.mem_map.mp hmem with ⟨piece, hpiece, rfl⟩
  refine ⟨hpred.1, ?_, ?_⟩
  · intro c hc
    have hc1 := trim_subset piece c hc
    obtain ⟨hc2, hc3⟩ := splitRuns_mem _ _ piece hpiece c hc1
    rcases replaceEach_isOther_mem _ c hc2 with h | h
    · exact h
    · rw [h] at hc3; cases hc3
  · intro hstop
    exact hpred.2 _ hstop rfl

theorem replaceRunsAux_of_none (p : Nat → Bool) (r : Str) (s : Str)
    (h : ∀ c ∈ s, p c = false) : ∀ b, replaceRunsAux p r b s = s := by
  induction s with
  | nil => intro b; rfl
  | cons c rest ih =>
    intro b
    have hc : ¬ p c = true := by simp [h c (List.mem_cons_self _ _)]
    unfold replaceRunsAux
    rw [if_neg hc, ih (fun d hd => h d (List.mem_cons_of_mem _ hd))]

theorem replaceEach_of_none (p : Nat → Bool) (r : Nat) (s : Str)
    (h : ∀ c ∈ s, p c = false) : replaceEach p r s = s := by
  unfold replaceEach
  conv_rhs => rw [← List.map_id s]
  apply List.map_congr_left
  intro c hc
  simp [h c hc]

theorem splitRunsAux_cons_keep (p : Nat → Bool) (cur : Str) (inRun : Bool) (c : Nat)
    (rest : Str) (h : p c = false) :
    splitRunsAux p cur inRun (c :: rest) = splitRunsAux p (cur ++ [c]) false rest := by
  simp [splitRunsAux, h]

theorem splitRunsAux_cons_sep (p : Nat → Bool) (cur : Str) (c : Nat) (rest : Str)
    (h : p c = true) :
    splitRunsAux p cur false (c :: rest) = cur :: splitRunsAux p [] true rest := by
  simp [splitRunsAux, h]

theorem splitRunsAux_append (p : Nat → Bool) (t : Str) (ht : ∀ c ∈ t, p c = false) :
    t ≠ [] → ∀ (cur : Str) (inRun : Bool) (rest : Str),
      splitRunsAux p cur inRun (t ++ rest) = splitRunsAux p (cur ++ t) false rest := by
  induction t with
  | nil => intro h; exact absurd rfl h
  | cons c t ih =>
    intro _ cur inRun rest
    rw [List.cons_append, splitRunsAux_cons_keep p cur inRun c _ (ht c (List.mem_cons_self _ _))]
    by_cases hnil : t = []
    · subst hnil; rfl
    · rw [ih (fun d hd => ht d (List.mem_cons_of_mem _ hd)) hnil (cur ++ [c]) false rest]
      simp

theorem splitRunsAux_joinWith (p : Nat → Bool) (sep : Nat) (hsep : p sep = true)
    (toks : List Str) (h : ∀ t ∈ toks, t ≠ [] ∧ ∀ c ∈ t, p c = false) :
    toks ≠ [] → ∀ inRun, splitRunsAux p [] inRun (joinWith [sep] toks) = toks := by
  induction toks with
  | nil => intro h; exact absurd rfl h
  | cons t ts ih =>
    intro _ inRun
    obtain ⟨htne, htp⟩ := h t (List.mem_cons_self _ _)
    cases ts with
    | nil =>
      have := splitRunsAux_append p t htp htne [] inRun []
      simp only [List.append_nil, List.nil_append] at this
      simp only [joinWith, this, splitRunsAux]
    | cons u us =>
      have hrest := ih (fun x hx => h x (List.mem_cons_of_mem _ hx)) (by simp) true
      simp only [joinWith, List.append_assoc] at hrest ⊢
      rw [splitRunsAux_append p t htp htne [] inRun, List.singleton_append,
        splitRunsAux_cons_sep p _ sep _ hsep, hrest, List.nil_append]

theorem joinWith_mem (sep : Str) (toks : List Str) :
    ∀ c ∈ joinWith sep toks, c ∈ sep ∨ ∃ t ∈ toks, c ∈ t := by
  induction toks with
  | nil => intro c hc; simp [joinWith] at hc
  | cons t ts ih =>
    intro c hc
    cases ts with
    | nil => exact Or.inr ⟨t, List.mem_cons_self _ _, by simpa [joinWith] using hc⟩
    | cons u us =>
      simp only [joinWith, List.mem_append] at hc
      rcases hc with (hc | hc) | hc
      · exact Or.inr ⟨t, List.mem_cons_self _ _, hc⟩
      · exact Or.inl hc
      · rcases ih c hc with h | ⟨x, hx, hcx⟩
        · exact Or.inl h
        · exact Or.inr ⟨x, List.mem_cons_of_mem _ hx, hcx⟩

/-- Tokenizing terms joined by single spaces gives the terms back, for every
lower-casing that leaves text over `[a-z0-9 ]` alone. -/
theorem tokenize_joinWith (lower : Str → Str)
    (hlower : ∀ s : Str, (∀ c ∈ s, isLowerAlnum c = true ∨ c = 32) → lower s = s)
    (toks : List Str) (h : ∀ t ∈ toks, IsTerm t) :
    tokenize lower (joinWith (lit " ") toks) = toks := by
  have hJ : ∀ c ∈ joinWith (lit " ") toks, isLowerAlnum c = true ∨ c = 32 := by
    intro c hc
    rcases joinWith_mem _ _ c hc with hc | ⟨t, ht, hct⟩
    · exact Or.inr (by simpa [lit] using hc)
    · exact Or.inl ((h t ht).2.1 c hct)
  have hbreak : ∀ c ∈ joinWith (lit " ") toks, isLineBreak c = false := by
    intro c hc
    rcases hJ c hc with hc | hc
    · simp only [isLowerAlnum, Bool.or_eq_true, Bool.and_eq_true, decide_eq_true_eq] at hc
      simp only [isLineBreak, Bool.or_eq_false_iff, beq_eq_false_iff_ne]
      omega
    · subst hc; decide
  have hother : ∀ c ∈ joinWith (lit " ") toks, isOther c = false := by
    intro c hc
    rcases hJ c hc with hc | hc
    · simp [isOther, hc]
    · subst hc; decide
  have hkeep : ∀ t ∈ toks, (decide (t.length > 2) && !(stop.contains t)) = true := by
    intro t ht
    obtain ⟨h1, _, h3⟩ := h t ht
    simp only [Bool.and_eq_true, decide_eq_true_eq, Bool.not_eq_true', List.contains_eq_any_beq,
      List.any_eq_false, beq_iff_eq]
    exact ⟨h1, fun x hx hxt => h3 (hxt ▸ hx)⟩
  have hnospace : ∀ t ∈ toks, ∀ c ∈ t, isSpace c = false :=
    fun t ht c hc => isLowerAlnum_not_space c ((h t ht).2.1 c hc)
  unfold tokenize
  rw [hlower _ hJ, replaceRuns, replaceRunsAux_of_none _ _ _ hbreak,
    replaceEach_of_none _ _ _ hother]
  by_cases hnil : toks = []
  · subst hnil
    decide
  · have hsplit : splitRuns isSpace (joinWith (lit " ") toks) = toks := by
      unfold splitRuns
      apply splitRunsAux_joinWith isSpace 32 (by decide) toks _ hnil
      intro t ht
      refine ⟨?_, hnospace t ht⟩
      intro he
      have := (h t ht).1
      rw [he] at this
      simp at this
    rw [hsplit]
    have htrim : toks.map trim = toks := by
      conv_rhs => rw [← List.map_id toks]
      apply List.map_congr_left
      intro t ht
      simpa using trim_of_no_space t (hnospace t ht)
    rw [htrim]
    exact List.filter_eq_self.mpr hkeep

theorem asciiLower_fixes (s : Str) (h : ∀ c ∈ s, isLowerAlnum c = true ∨ c = 32) :
    asciiLower s = s := by
  unfold asciiLower
  conv_rhs => rw [← List.map_id s]
  apply List.map_congr_left
  intro c hc
  have hc2 := h c hc
  simp only [isLowerAlnum, Bool.or_eq_true, Bool.and_eq_true, decide_eq_true_eq] at hc2
  have : ¬ (65 ≤ c ∧ c ≤ 90) := by omega
  simp [this]


/-! ## Properties of objects used as maps -/

theorem getOwn_setProp_same {α : Type} (o : List (Str × α)) (k : Str) (v : α) :
    getOwn (setProp o k v) k = some v := by
  induction o with
  | nil => simp [setProp, getOwn]
  | cons kv rest ih =>
    obtain ⟨k1, v1⟩ := kv
    by_cases h : k1 = k
    · simp [setProp, getOwn, h]
    · simp [setProp, getOwn, h, ih]

theorem getOwn_setProp_other {α : Type} (o : List (Str × α)) (k t : Str) (v : α) (h : k ≠ t) :
    getOwn (setProp o k v) t = getOwn o t := by
  induction o with
  | nil => simp [setProp, getOwn, h]
  | cons kv rest ih =>
    obtain ⟨k1, v1⟩ := kv
    by_cases h1 : k1 = k
    · subst h1
      simp [setProp, getOwn, h]
    · by_cases h2 : k1 = t
      · subst h2
        simp [setProp, getOwn, h1]
      · simp [setProp, getOwn, h1, h2, ih]

theorem getOwn_bump_other (o : List (Str × Cell)) (k t : Str) (h : k ≠ t) :
    getOwn (bump o k) t = getOwn o t :=
  getOwn_setProp_other o k t _ h

theorem getOwn_map {α β : Type} (f : Str × α → β) (o : List (Str × α)) (t : Str) :
    getOwn (o.map fun kv => (kv.1, f kv)) t
      = match getOwn o t with
        | some v => some (f (t, v))
        | none => none := by
  induction o with
  | nil => rfl
  | cons kv rest ih =>
    obtain ⟨k1, v1⟩ := kv
    by_cases h : k1 = t
    · subst h; simp [getOwn]
    · simp [getOwn, h, ih]

theorem getOwn_mem {α : Type} (o : List (Str × α)) (t : Str) (v : α)
    (h : getOwn o t = some v) : (t, v) ∈ o := by
  induction o with
  | nil => simp [getOwn] at h
  | cons kv rest ih =>
    obtain ⟨k1, v1⟩ := kv
    by_cases h1 : k1 = t
    · subst h1
      simp only [getOwn, if_true, Option.some.injEq] at h
      subst h
      exact List.mem_cons_self _ _
    · simp only [getOwn, h1, if_false] at h
      exact List.mem_cons_of_mem _ (ih h)

theorem mem_setProp {α : Type} (o : List (Str × α)) (k : Str) (v : α) :
    ∀ kv ∈ setProp o k v, kv = (k, v) ∨ kv ∈ o := by
  induction o with
  | nil => intro kv h; simpa [setProp] using h
  | cons e rest ih =>
    obtain ⟨k1, v1⟩ := e
    intro kv h
    by_cases h1 : k1 = k
    · subst h1
      simp only [setProp, if_true, List.mem_cons] at h
      rcases h with h | h
      · exact Or.inl h
      · exact Or.inr (List.mem_cons_of_mem _ h)
    · simp only [setProp, h1, if_false, List.mem_cons] at h
      rcases h with h | h
      · exact Or.inr (h ▸ List.mem_cons_self _ _)
      · rcases ih kv h with h | h
        · exact Or.inl h
        · exact Or.inr (List.mem_cons_of_mem _ h)

theorem getOwn_bump_same (o : List (Str × Cell)) (t : Str) (n : Nat)
    (ht : t ≠ lit "constructor") (h : getOwn o t = countCell n) :
    getOwn (bump o t) t = countCell (n + 1) := by
  unfold bump
  rw [getOwn_setProp_same]
  cases n with
  | zero =>
    simp only [countCell] at h
    simp [getProp, h, ht, countCell]
  | succ m =>
    simp only [countCell] at h
    simp [getProp, h, countCell]

/-! ## Properties of ingestion -/

theorem mem_foldl_setAdd (tokens : List Str) :
    ∀ (s : List Str) (t : Str), t ∈ tokens.foldl setAdd s ↔ t ∈ s ∨ t ∈ tokens := by
  induction tokens with
  | nil => intro s t; simp
  | cons k rest ih =>
    intro s t
    rw [List.foldl_cons, ih]
    unfold setAdd
    by_cases hk : k ∈ s
    · rw [if_pos hk]
      constructor
      · rintro (h | h)
        · exact Or.inl h
        · exact Or.inr (List.mem_cons_of_mem _ h)
      · rintro (h | h)
        · exact Or.inl h
        · rcases List.mem_cons.mp h with h | h
          · exact Or.inl (h ▸ hk)
          · exact Or.inr h
    · rw [if_neg hk]
      simp only [List.mem_append, List.mem_singleton, List.mem_cons]
      tauto

theorem nodup_foldl_setAdd (tokens : List Str) :
    ∀ s : List Str, s.Nodup → (tokens.foldl setAdd s).Nodup := by
  induction tokens with
  | nil => intro s h; exact h
  | cons k rest ih =>
    intro s h
    rw [List.foldl_cons]
    apply ih
    unfold setAdd
    by_cases hk : k ∈ s
    · rw [if_pos hk]; exact h
    · rw [if_neg hk]
      exact List.Nodup.append h (List.nodup_singleton k) (by simpa using hk)

theorem mem_seenTerms (tokens : List Str) (t : Str) : t ∈ Upload.seenTerms tokens ↔ t ∈ tokens := by
  simp [Upload.seenTerms, mem_foldl_setAdd]

theorem nodup_seenTerms (tokens : List Str) : (Upload.seenTerms tokens).Nodup :=
  nodup_foldl_setAdd tokens [] List.nodup_nil

/-- Bumping the keys of a duplicate-free list adds one to the count of each
of them, for the keys other than `constructor`. -/
theorem getOwn_foldl_bump (l : List Str) (t : Str) (ht : t ≠ lit "constructor") :
    l.Nodup → ∀ (o : List (Str × Cell)) (n : Nat), getOwn o t = countCell n →
      getOwn (l.foldl bump o) t = countCell (n + if t ∈ l then 1 else 0) := by
  induction l with
  | nil => intro _ o n h; simpa using h
  | cons k rest ih =>
    intro hnd o n h
    obtain ⟨hk, hrest⟩ := List.nodup_cons.mp hnd
    rw [List.foldl_cons]
    by_cases hkt : k = t
    · subst hkt
      have := ih hrest (bump o k) (n + 1) (getOwn_bump_same o k n ht h)
      simpa [hk] using this
    · have := ih hrest (bump o k) n (by rw [getOwn_bump_other o k t hkt]; exact h)
      have hne : ¬ t = k := fun e => hkt e.symm
      simpa [List.mem_cons, hne] using this

theorem isSome_getOwn_foldl_bump (tokens : List Str) (t : Str) :
    ∀ o : List (Str × Cell),
      (getOwn (tokens.foldl bump o) t).isSome = true ↔
        (getOwn o t).isSome = true ∨ t ∈ tokens := by
  induction tokens with
  | nil => intro o; simp
  | cons k rest ih =>
    intro o
    rw [List.foldl_cons, ih]
    by_cases hkt : k = t
    · subst hkt
      have : (getOwn (bump o k) k).isSome = true := by
        unfold bump; rw [getOwn_setProp_same]; rfl
      simp [this]
    · rw [getOwn_bump_other o k t hkt]
      have hne : ¬ t = k := fun e => hkt e.symm
      simp [List.mem_cons, hne]

theorem isSome_getOwn_rawTf (tokens : List Str) (t : Str) :
    (getOwn (Upload.rawTf tokens) t).isSome = true ↔ t ∈ tokens := by
  unfold Upload.rawTf
  rw [isSome_getOwn_foldl_bump]
  simp [getOwn]

theorem isSome_getOwn_normalise (tf : List (Str × Cell)) (t : Str) :
    (getOwn (Upload.normalise tf) t).isSome = (getOwn tf t).isSome := by
  unfold Upload.normalise
  rw [getOwn_map]
  cases getOwn tf t <;> rfl

/-- The keys of a stored `tf` are the tokens of the chunk. -/
theorem isSome_getOwn_tf (tokens : List Str) (t : Str) :
    (getOwn (Upload.normalise (Upload.rawTf tokens)) t).isSome = true ↔ t ∈ tokens := by
  rw [isSome_getOwn_normalise, isSome_getOwn_rawTf]

theorem tfFreq_append_singleton (chunks : List ChunkRecord) (c : ChunkRecord) (t : Str) :
    tfFreq (chunks ++ [c]) t = tfFreq chunks t + if (getOwn c.tf t).isSome = true then 1 else 0 := by
  simp [tfFreq, List.countP_append, List.countP_cons]

theorem wellFormed_indexChunk (lower : Str → Str) (docId : Str) (store : Store) (chunkId : Str)
    (text : Str) (h : WellFormed lower store) :
    WellFormed lower (Upload.indexChunk lower docId store chunkId text) := by
  refine ⟨?_, ?_, ?_⟩
  · simp [Upload.indexChunk, h.total]
  · intro t ht
    simp only [Upload.indexChunk]
    rw [getOwn_foldl_bump _ t ht (nodup_seenTerms _) store.df _ (h.freq t ht),
      tfFreq_append_singleton]
    simp only [mem_seenTerms, isSome_getOwn_tf]
  · intro c hc
    simp only [Upload.indexChunk, List.mem_append, List.mem_singleton] at hc
    rcases hc with hc | hc
    · exact h.terms c hc
    · subst hc; rfl

theorem wellFormed_indexChunks (lower : Str → Str) (docId : Str) (uuid : Nat → Str)
    (chunks : List Str) :
    ∀ (i : Nat) (store : Store), WellFormed lower store →
      WellFormed lower (Upload.indexChunks lower docId uuid i chunks store) := by
  induction chunks with
  | nil => intro i store h; exact h
  | cons c rest ih =>
    intro i store h
    exact ih (i + 1) _ (wellFormed_indexChunk lower docId store _ c h)

theorem indexChunks_counts (lower : Str → Str) (docId : Str) (uuid : Nat → Str)
    (chunks : List Str) :
    ∀ (i : Nat) (store : Store),
      (Upload.indexChunks lower docId uuid i chunks store).chunks.length
          = store.chunks.length + chunks.length ∧
        (Upload.indexChunks lower docId uuid i chunks store).totalChunks
          = store.totalChunks + chunks.length := by
  induction chunks with
  | nil => intro i store; exact ⟨rfl, rfl⟩
  | cons c rest ih =>
    intro i store
    obtain ⟨h1, h2⟩ := ih (i + 1) (Upload.indexChunk lower docId store (uuid (i + 1)) c)
    have h3 : (Upload.indexChunk lower docId store (uuid (i + 1)) c).chunks.length
        = store.chunks.length + 1 := by simp [Upload.indexChunk]
    have h4 : (Upload.indexChunk lower docId store (uuid (i + 1)) c).totalChunks
        = store.totalChunks + 1 := rfl
    rw [h3] at h1
    rw [h4] at h2
    rw [Upload.indexChunks, h1, h2, List.length_cons]
    omega

theorem chunkText_default_returns (text : Str) :
    ∃ chunks, chunkText text CHUNK_MAX_CHARS = some chunks := by
  obtain ⟨chunks, h, _⟩ := chunkText_spec text CHUNK_MAX_CHARS (by decide)
  exact ⟨chunks, h⟩

theorem trim_ne_nil_of_nonblank (text : Str) (h : ∃ c ∈ text, isSpace c = false) :
    trim text ≠ [] := by
  intro he
  have h1 : squeeze text = [] := by rw [← squeeze_trim, he]; rfl
  obtain ⟨c, hc, hsp⟩ := h
  have : c ∈ squeeze text := by simp [squeeze, hc, hsp]
  rw [h1] at this
  simp at this

theorem not_blank_guard (text : Str) (h : ∃ c ∈ text, isSpace c = false) :
    ¬ (text = [] ∨ (trim text).length = 0) := by
  rintro (he | he)
  · obtain ⟨c, hc, _⟩ := h
    rw [he] at hc
    simp at hc
  · exact trim_ne_nil_of_nonblank text h (List.length_eq_zero.mp he)

/-- The upload handler always returns. -/
theorem handler_returns (lower : Str → Str) (uuid : Nat → Str) (name now : Str) (store : Store)
    (text : Str) : ∃ r, Upload.handler lower uuid name now store text = some r := by
  unfold Upload.handler
  by_cases hg : text = [] ∨ (trim text).length = 0
  · rw [if_pos hg]; exact ⟨_, rfl⟩
  · rw [if_neg hg]
    obtain ⟨chunks, hch⟩ := chunkText_default_returns text
    rw [hch]
    exact ⟨_, rfl⟩

theorem wellFormed_handler (lower : Str → Str) (uuid : Nat → Str) (name now : Str)
    (store store' : Store) (text : Str) (resp : Upload.Response) (h : WellFormed lower store)
    (hstep : Upload.handler lower uuid name now store text = some (resp, store')) :
    WellFormed lower store' := by
  unfold Upload.handler at hstep
  by_cases hg : text = [] ∨ (trim text).length = 0
  · rw [if_pos hg] at hstep
    simp only [Option.some.injEq, Prod.mk.injEq] at hstep
    rw [← hstep.2]; exact h
  · rw [if_neg hg] at hstep
    obtain ⟨chunks, hch⟩ := chunkText_default_returns text
    rw [hch] at hstep
    simp only [Option.some.injEq, Prod.mk.injEq] at hstep
    have hw := wellFormed_indexChunks lower (uuid 0) uuid chunks 0 store h
    rw [← hstep.2]
    exact ⟨hw.total, hw.freq, hw.terms⟩

theorem wellFormed_empty (lower : Str → Str) : WellFormed lower emptyStore :=
  ⟨rfl, fun _ _ => rfl, fun _ hc => by simp [emptyStore] at hc⟩

/-- Every store built by ingestions is well formed. -/
theorem wellFormed_of_reachable (lower : Str → Str) (store : Store)
    (h : Reachable lower store) : WellFormed lower store := by
  induction h with
  | empty => exact wellFormed_empty lower
  | ingest uuid name now text store store' resp _ hstep ih =>
    exact wellFormed_handler lower uuid name now store store' text resp ih hstep


/-! ## Properties of retrieval -/

theorem reachable_stored (lower : Str → Str) (uuid : Nat → Str) (name now : Str) (store : Store)
    (text : Str) (h : Reachable lower store) :
    Reachable lower (Upload.stored lower uuid name now store text) := by
  obtain ⟨⟨resp, store'⟩, hr⟩ := handler_returns lower uuid name now store text
  have : Upload.stored lower uuid name now store text = store' := by
    simp only [Upload.stored, hr]
  rw [this]
  exact Reachable.ingest uuid name now text store store' resp h hr

theorem rawTf_singleton (t : Str) (ht : t ≠ lit "constructor") :
    Upload.rawTf [t] = [(t, .count 1)] := by
  simp [Upload.rawTf, bump, getProp, getOwn, setProp, ht]

theorem computeQueryTfIdf_singleton (store : Store) (t : Str) (ht : t ≠ lit "constructor") :
    Chat.computeQueryTfIdf [t] store = [(t, Num.mul (some 1) (Chat.idf store t))] := by
  simp [Chat.computeQueryTfIdf, rawTf_singleton t ht, mathMaxWithOne]

theorem idf_of_count (store : Store) (t : Str) (n : Nat)
    (h : getOwn store.df t = some (.count n)) :
    Chat.idf store t = some (Real.log ((Chat.chunkTotal store : ℝ) / (1 + (n : ℝ)))) := by
  simp [Chat.idf, getProp, h]

theorem chunkTotal_of_wellFormed (lower : Str → Str) (store : Store)
    (h : WellFormed lower store) (hne : store.chunks ≠ []) :
    Chat.chunkTotal store = store.chunks.length := by
  have hpos : 0 < store.chunks.length := List.length_pos.mpr hne
  unfold Chat.chunkTotal
  rw [h.total]
  have : store.chunks.length ≠ 0 := by omega
  rw [if_pos this]
  omega

/-- The logarithm of `n / 2` is not zero for a natural number `n ≥ 1` other than 2. -/
theorem log_half_ne_zero (n : Nat) (h1 : 1 ≤ n) (h2 : n ≠ 2) :
    Real.log ((n : ℝ) / (1 + ((1 : Nat) : ℝ))) ≠ 0 := by
  have hn : (0 : ℝ) < n := by exact_mod_cast h1
  have hpos : (0 : ℝ) < (n : ℝ) / (1 + ((1 : Nat) : ℝ)) := by positivity
  intro h0
  rcases Real.log_eq_zero.mp h0 with h | h | h
  · linarith
  · have : (n : ℝ) = 2 := by
      field_simp at h
      linarith
    exact h2 (by exact_mod_cast this)
  · linarith

theorem getOwn_chunkVec (tf : List (Str × TfVal)) (store : Store) (t : Str) :
    getOwn (Chat.computeChunkTfIdfVec tf store) t
      = match getOwn tf t with
        | some v => some (Num.mul (some (Chat.tfNumber v)) (Chat.idf store t))
        | none => none := by
  unfold Chat.computeChunkTfIdfVec
  rw [getOwn_map (fun kv => Num.mul (some (Chat.tfNumber kv.2)) (Chat.idf store kv.1)) tf t]
  cases getOwn tf t <;> rfl

/-- A chunk without the query term scores 0. -/
theorem score_eq_zero_of_absent (store : Store) (t : Str) (x : Num) (d : ChunkRecord)
    (ht : t ≠ lit "constructor") (hd : getOwn d.tf t = none) :
    (Chat.scoreChunk [(t, x)] store d).score = 0 := by
  have hdot : Chat.dotProduct [(t, x)] (Chat.computeChunkTfIdfVec d.tf store) = some 0 := by
    simp [Chat.dotProduct, Chat.dotProductFrom, getProp, getOwn_chunkVec, hd, ht]
  unfold Chat.scoreChunk
  simp only [hdot]
  cases Num.mul (Chat.norm [(t, x)]) (Chat.norm (Chat.computeChunkTfIdfVec d.tf store)) with
  | none => rfl
  | some y => simp [Num.div]

theorem counts_bump (o : List (Str × Cell)) (k : Str) (hk : k ≠ lit "constructor")
    (h : ∀ kv ∈ o, ∃ n, 1 ≤ n ∧ kv.2 = Cell.count n) :
    ∀ kv ∈ bump o k, ∃ n, 1 ≤ n ∧ kv.2 = Cell.count n := by
  intro kv hkv
  rcases mem_setProp o k _ kv hkv with hkv | hkv
  · subst hkv
    cases hget : getOwn o k with
    | none => exact ⟨1, le_refl 1, by simp [getProp, hget, hk]⟩
    | some w =>
      obtain ⟨n, _, hn⟩ := h (k, w) (getOwn_mem o k w hget)
      simp only at hn
      subst hn
      exact ⟨n + 1, by omega, by simp [getProp, hget]⟩
  · exact h kv hkv

theorem counts_foldl_bump (tokens : List Str) (hctor : lit "constructor" ∉ tokens) :
    ∀ o : List (Str × Cell), (∀ kv ∈ o, ∃ n, 1 ≤ n ∧ kv.2 = Cell.count n) →
      ∀ kv ∈ tokens.foldl bump o, ∃ n, 1 ≤ n ∧ kv.2 = Cell.count n := by
  induction tokens with
  | nil => intro o h; exact h
  | cons k rest ih =>
    intro o h
    rw [List.foldl_cons]
    apply ih (fun hmem => hctor (List.mem_cons_of_mem _ hmem))
    exact counts_bump o k (fun e => hctor (e ▸ List.mem_cons_self _ _)) h

theorem keys_foldl_bump (tokens : List Str) :
    ∀ o : List (Str × Cell), ∀ kv ∈ tokens.foldl bump o,
      kv.1 ∈ tokens ∨ ∃ kv' ∈ o, kv'.1 = kv.1 := by
  induction tokens with
  | nil => intro o kv h; exact Or.inr ⟨kv, h, rfl⟩
  | cons k rest ih =>
    intro o kv hkv
    rw [List.foldl_cons] at hkv
    rcases ih (bump o k) kv hkv with h | ⟨kv', hkv', he⟩
    · exact Or.inl (List.mem_cons_of_mem _ h)
    · rcases mem_setProp o k _ kv' hkv' with h | h
      · subst h
        exact Or.inl (he ▸ List.mem_cons_self _ _)
      · exact Or.inr ⟨kv', h, he⟩

theorem mathMaxWithOne_of_counts (vals : List Cell)
    (h : ∀ v ∈ vals, ∃ n, 1 ≤ n ∧ v = Cell.count n) :
    ∃ m, 1 ≤ m ∧ mathMaxWithOne vals = some m := by
  induction vals with
  | nil => exact ⟨1, le_refl 1, rfl⟩
  | cons v rest ih =>
    obtain ⟨n, hn, rfl⟩ := h v (List.mem_cons_self _ _)
    obtain ⟨m, hm, hrest⟩ := ih (fun w hw => h w (List.mem_cons_of_mem _ hw))
    exact ⟨max n m, le_trans hm (le_max_right n m), by simp [mathMaxWithOne, hrest]⟩

/-- The `tf` stored for tokens without `constructor`: the keys are tokens and
the values are positive numbers. -/
theorem tf_entries (tokens : List Str) (hctor : lit "constructor" ∉ tokens) :
    ∀ kv ∈ Upload.normalise (Upload.rawTf tokens),
      kv.1 ∈ tokens ∧ ∃ q : ℚ, 0 < q ∧ kv.2 = TfVal.num q := by
  have hcounts : ∀ kv ∈ Upload.rawTf tokens, ∃ n, 1 ≤ n ∧ kv.2 = Cell.count n :=
    counts_foldl_bump tokens hctor [] (by simp)
  obtain ⟨m, hm, hmax⟩ := mathMaxWithOne_of_counts ((Upload.rawTf tokens).map Prod.snd) (by
    intro v hv
    obtain ⟨kv, hkv, rfl⟩ := List.mem_map.mp hv
    exact hcounts kv hkv)
  intro kv hkv
  unfold Upload.normalise at hkv
  obtain ⟨kv0, hkv0, rfl⟩ := List.mem_map.mp hkv
  refine ⟨?_, ?_⟩
  · rcases keys_foldl_bump tokens [] kv0 hkv0 with h | ⟨_, h, _⟩
    · exact h
    · simp at h
  · obtain ⟨n, hn, hn2⟩ := hcounts kv0 hkv0
    refine ⟨(n : ℚ) / (m : ℚ), ?_, by simp only [hn2, hmax]⟩
    have h1 : (0 : ℚ) < n := by exact_mod_cast hn
    have h2 : (0 : ℚ) < m := by exact_mod_cast hm
    positivity

theorem foldl_sq_some (a : List (Str × Num)) (h : ∀ kv ∈ a, ∃ x, kv.2 = some x) :
    ∀ s0 : ℝ, ∃ s, a.foldl (fun s kv => Num.add s (Num.mul kv.2 kv.2)) (some s0) = some s := by
  induction a with
  | nil => intro s0; exact ⟨s0, rfl⟩
  | cons kv rest ih =>
    intro s0
    obtain ⟨x, hx⟩ := h kv (List.mem_cons_self _ _)
    rw [List.foldl_cons, hx]
    exact ih (fun kv' hkv' => h kv' (List.mem_cons_of_mem _ hkv')) (s0 + x * x)

theorem norm_pos (a : List (Str × Num)) (h : ∀ kv ∈ a, ∃ x, kv.2 = some x) :
    ∃ y, 0 < y ∧ Chat.norm a = some y := by
  obtain ⟨s, hs⟩ := foldl_sq_some a h 0
  refine ⟨Real.sqrt s + 1e-10, ?_, by simp only [Chat.norm, hs]⟩
  have := Real.sqrt_nonneg s
  have : (0 : ℝ) < 1e-10 := by norm_num
  linarith

/-- A chunk that holds the query term with a positive frequency, all of whose
terms have a numeric `idf`, scores more than 0 when the `idf` of the query term
is not zero. -/
theorem score_pos_of_present (store : Store) (t : Str) (L : ℝ) (hL : L ≠ 0) (c : ChunkRecord)
    (hidf : Chat.idf store t = some L) (q : ℚ) (hq : 0 < q)
    (hc : getOwn c.tf t = some (.num q))
    (hall : ∀ kv ∈ c.tf, ∃ x, Chat.idf store kv.1 = some x) :
    0 < (Chat.scoreChunk [(t, Num.mul (some 1) (Chat.idf store t))] store c).score := by
  have hq2 : (0 : ℝ) < (q : ℝ) := by exact_mod_cast hq
  obtain ⟨y, hy, hnc⟩ := norm_pos (Chat.computeChunkTfIdfVec c.tf store) (by
    intro kv hkv
    unfold Chat.computeChunkTfIdfVec at hkv
    obtain ⟨kv0, hkv0, rfl⟩ := List.mem_map.mp hkv
    obtain ⟨x, hx⟩ := hall kv0 hkv0
    exact ⟨Chat.tfNumber kv0.2 * x, by simp only [hx, Num.mul]⟩)
  obtain ⟨z, hz, hnq⟩ := norm_pos [(t, Num.mul (some 1) (Chat.idf store t))] (by
    intro kv hkv
    simp only [List.mem_singleton] at hkv
    subst hkv
    exact ⟨1 * L, by simp only [hidf, Num.mul]⟩)
  have hne : (q : ℝ) * L ≠ 0 := mul_ne_zero (ne_of_gt hq2) hL
  have hdot : Chat.dotProduct [(t, Num.mul (some 1) (Chat.idf store t))]
      (Chat.computeChunkTfIdfVec c.tf store) = some (0 + 1 * L * ((q : ℝ) * L)) := by
    simp only [Chat.dotProduct, Chat.dotProductFrom, getProp, getOwn_chunkVec, hc, hidf, Num.mul,
      Chat.tfNumber, Num.add, if_pos hne]
  unfold Chat.scoreChunk
  rw [hdot, hnq, hnc]
  simp only [Num.mul, Num.div]
  have hnum : 0 < 0 + 1 * L * ((q : ℝ) * L) := by
    have : 0 < L * L := mul_self_pos.mpr hL
    nlinarith
  exact div_pos hnum (mul_pos hz hy)

theorem orderedInsert_of_zero (a : Chat.Scored) (l : List Chat.Scored)
    (ha : 0 ≤ a.score) (h : ∀ y ∈ l, y.score = 0) :
    List.orderedInsert (fun a b : Chat.Scored => a.score ≥ b.score) a l = a :: l := by
  cases l with
  | nil => rfl
  | cons b rest =>
    have hb : a.score ≥ b.score := by rw [h b (List.mem_cons_self _ _)]; exact ha
    simp only [List.orderedInsert, if_pos hb]

theorem insertionSort_of_zero (l : List Chat.Scored) (h : ∀ y ∈ l, y.score = 0) :
    l.insertionSort (fun a b : Chat.Scored => a.score ≥ b.score) = l := by
  induction l with
  | nil => rfl
  | cons a rest ih =>
    rw [List.insertionSort, ih (fun y hy => h y (List.mem_cons_of_mem _ hy))]
    exact orderedInsert_of_zero a rest (le_of_eq (h a (List.mem_cons_self _ _)).symm)
      (fun y hy => h y (List.mem_cons_of_mem _ hy))

/-- The stable sort of a list with one positive score among zeros moves the
positive entry to the front and keeps the others in place. -/
theorem insertionSort_single_pos (A B : List Chat.Scored) (x : Chat.Scored)
    (hA : ∀ y ∈ A, y.score = 0) (hB : ∀ y ∈ B, y.score = 0) (hx : 0 < x.score) :
    (A ++ x :: B).insertionSort (fun a b : Chat.Scored => a.score ≥ b.score)
      = x :: (A ++ B) := by
  induction A with
  | nil =>
    rw [List.nil_append, List.insertionSort, insertionSort_of_zero B hB]
    exact orderedInsert_of_zero x B (le_of_lt hx) hB
  | cons a rest ih =>
    rw [List.cons_append, List.insertionSort,
      ih (fun y hy => hA y (List.mem_cons_of_mem _ hy))]
    have ha : a.score = 0 := hA a (List.mem_cons_self _ _)
    have hlt : ¬ a.score ≥ x.score := by rw [ha]; exact not_le.mpr hx
    simp only [List.orderedInsert, if_neg hlt, List.cons_append]
    rw [orderedInsert_of_zero a (rest ++ B) (le_of_eq ha.symm)]
    intro y hy
    rcases List.mem_append.mp hy with hy | hy
    · exact hA y (List.mem_cons_of_mem _ hy)
    · exact hB y hy

theorem top_single_pos (l : List Chat.Scored) (x : Chat.Scored) (k : Nat) (hk : 1 ≤ k)
    (hl : ∀ y ∈ l, y.score = 0) (hx : 0 < x.score) :
    ((x :: l).take k).filter (fun s => decide (s.score > 0)) = [x] := by
  obtain ⟨j, rfl⟩ : ∃ j, k = j + 1 := ⟨k - 1, by omega⟩
  rw [List.take_succ_cons, List.filter_cons_of_pos (by simpa using hx)]
  congr 1
  rw [List.filter_eq_nil_iff]
  intro y hy
  have := hl y (List.mem_of_mem_take hy)
  simp [this]

theorem split_of_countP_one {α : Type} (p : α → Bool) (l : List α) (c : α) (hc : c ∈ l)
    (hp : p c = true) (h : l.countP p = 1) :
    ∃ A B, l = A ++ c :: B ∧ (∀ y ∈ A, p y = false) ∧ (∀ y ∈ B, p y = false) := by
  obtain ⟨A, B, rfl⟩ := List.append_of_mem hc
  rw [List.countP_append, List.countP_cons_of_pos _ _ hp] at h
  have hA : A.countP p = 0 := by omega
  have hB : B.countP p = 0 := by omega
  refine ⟨A, B, rfl, ?_, ?_⟩
  · intro y hy
    have := List.countP_eq_zero.mp hA y hy
    simpa using this
  · intro y hy
    have := List.countP_eq_zero.mp hB y hy
    simpa using this

theorem tfFreq_eq_countP (lower : Str → Str) (store : Store) (h : WellFormed lower store)
    (t : Str) :
    tfFreq store.chunks t
      = store.chunks.countP fun d => decide (t ∈ tokenize lower d.text) := by
  unfold tfFreq
  apply List.countP_congr
  intro d hd
  rw [h.terms d hd, isSome_getOwn_tf]
  simp

/-- In a well-formed store a term other than `constructor` that a chunk holds
has a numeric `idf`. -/
theorem idf_some_of_present (lower : Str → Str) (store : Store) (h : WellFormed lower store)
    (c : ChunkRecord) (hc : c ∈ store.chunks) (k : Str) (hk : k ∈ tokenize lower c.text)
    (hne : k ≠ lit "constructor") :
    Chat.idf store k = some (Real.log ((Chat.chunkTotal store : ℝ)
      / (1 + ((tfFreq store.chunks k : Nat) : ℝ)))) := by
  have hpos : 0 < tfFreq store.chunks k := by
    rw [tfFreq_eq_countP lower store h, List.countP_pos_iff]
    exact ⟨c, hc, by simpa using hk⟩
  obtain ⟨n, hn⟩ : ∃ n, tfFreq store.chunks k = n + 1 := ⟨tfFreq store.chunks k - 1, by omega⟩
  apply idf_of_count
  rw [h.freq k hne, hn]
  rfl

/-- A chunk scores 0 for a one-term query whose term has `idf` 0. -/
theorem score_eq_zero_of_idf_zero (store : Store) (t : Str) (x : Num) (d : ChunkRecord)
    (ht : t ≠ lit "constructor") (hidf : Chat.idf store t = some 0) :
    (Chat.scoreChunk [(t, x)] store d).score = 0 := by
  have hdot : Chat.dotProduct [(t, x)] (Chat.computeChunkTfIdfVec d.tf store) = some 0 := by
    cases hget : getOwn d.tf t with
    | none =>
      simp [Chat.dotProduct, Chat.dotProductFrom, getProp, getOwn_chunkVec, hget, ht]
    | some v =>
      simp [Chat.dotProduct, Chat.dotProductFrom, getProp, getOwn_chunkVec, hget, hidf, Num.mul]
  unfold Chat.scoreChunk
  simp only [hdot]
  cases Num.mul (Chat.norm [(t, x)]) (Chat.norm (Chat.computeChunkTfIdfVec d.tf store)) with
  | none => rfl
  | some y => simp [Num.div]

/-- When no scored chunk has a positive score the handler answers that no
relevant content was found. -/
theorem handler_no_relevant (lower : Str → Str) (store : Store) (message : Str)
    (topK : Option Nat) (docs : Option (List Str)) (hne : store.chunks ≠ [])
    (hmsg : message ≠ []) (htok : tokenize lower message ≠ [])
    (hscores : ∀ d ∈ store.chunks,
      (Chat.scoreChunk (Chat.computeQueryTfIdf (tokenize lower message) store) store d).score ≤ 0) :
    Chat.handler lower store (some message) topK docs
      = .answer "No relevant content found in uploaded materials." := by
  have hlen : ¬ store.chunks.length = 0 := fun e => hne (List.length_eq_zero.mp e)
  have htl : ¬ (tokenize lower message).length = 0 := fun e => htok (List.length_eq_zero.mp e)
  unfold Chat.handler
  rw [if_neg hlen]
  simp only [if_neg hmsg, if_neg htl]
  rw [if_pos]
  rw [List.length_eq_zero, List.filter_eq_nil_iff]
  intro y hy
  have hy1 := (List.perm_insertionSort _ _).subset (List.mem_of_mem_take hy)
  obtain ⟨d, hd, rfl⟩ := List.mem_map.mp hy1
  have := hscores d (List.mem_of_mem_filter hd)
  simpa using this


/-! ## Supporting results: what holds next to the failing claims -/

theorem dropWhile_of_head (s : Str) (c : Nat) (rest : Str) (hs : s = c :: rest)
    (hc : isSpace c = false) : s.dropWhile isSpace = s := by
  subst hs
  simp [List.dropWhile_cons, hc]

/-- A string that neither starts nor ends with whitespace is its own trim. -/
theorem trim_of_ends (s : Str) (c : Nat) (rest : Str) (d : Nat) (front : Str)
    (h1 : s = c :: rest) (h2 : s = front ++ [d]) (hc : isSpace c = false)
    (hd : isSpace d = false) : trim s = s := by
  unfold trim
  rw [dropWhile_of_head s c rest h1 hc]
  have hrev : s.reverse = d :: front.reverse := by rw [h2]; simp
  rw [dropWhile_of_head s.reverse d front.reverse hrev hd, List.reverse_reverse]

theorem paragraphs_two (p q : Str) (hp : p ≠ []) (hq : q ≠ [])
    (hps : ∀ c ∈ p, isSpace c = false) (hqs : ∀ c ∈ q, isSpace c = false) :
    paragraphs (p ++ [10] ++ q) = [p, q] := by
  have hnl : ∀ s : Str, (∀ c ∈ s, isSpace c = false) → ∀ c ∈ s, isNewline c = false := by
    intro s hs c hc
    cases h : isNewline c with
    | false => rfl
    | true =>
      have := isNewline_isSpace c h
      rw [hs c hc] at this
      cases this
  have hsplit : splitRuns isNewline (p ++ [10] ++ q) = [p, q] := by
    have := splitRunsAux_joinWith isNewline 10 (by decide) [p, q] (by
      intro t ht
      simp only [List.mem_cons, List.mem_singleton, List.not_mem_nil, or_false] at ht
      rcases ht with rfl | rfl
      · exact ⟨hp, hnl _ hps⟩
      · exact ⟨hq, hnl _ hqs⟩) (by simp) false
    simpa [splitRuns, joinWith] using this
  unfold paragraphs
  rw [hsplit]
  simp [trim_of_no_space p hps, trim_of_no_space q hqs, hp, hq]

/-- Two paragraphs without whitespace whose lengths add up to `maxChars - 1`
come back as one chunk of `maxChars + 1` units. -/
theorem chunkText_two_paragraphs (p q : Str) (maxChars : Nat) (hp : p ≠ []) (hq : q ≠ [])
    (hps : ∀ c ∈ p, isSpace c = false) (hqs : ∀ c ∈ q, isSpace c = false)
    (hlen : p.length + 1 + q.length = maxChars) :
    chunkText (p ++ [10] ++ q) maxChars = some [p ++ [10, 10] ++ q] ∧
      (p ++ [10, 10] ++ q).length = maxChars + 1 := by
  refine ⟨?_, by simp only [List.length_append, List.length_cons, List.length_nil]; omega⟩
  obtain ⟨c, rest, hp1⟩ := List.exists_cons_of_ne_nil hp
  obtain ⟨front, d, hq1⟩ : ∃ front d, q = front ++ [d] :=
    ⟨q.dropLast, q.getLast hq, (List.dropLast_append_getLast hq).symm⟩
  have hc : isSpace c = false := hps c (by rw [hp1]; exact List.mem_cons_self _ _)
  have hd : isSpace d = false := hqs d (by rw [hq1]; simp)
  have htrim : trim (p ++ lit "\n\n" ++ q) = p ++ lit "\n\n" ++ q :=
    trim_of_ends _ c (rest ++ lit "\n\n" ++ q) d (p ++ lit "\n\n" ++ front)
      (by rw [hp1]; simp) (by rw [hq1]; simp) hc hd
  have h1 : ¬ (([] : Str) ++ lit " " ++ p).length > maxChars := by
    simp only [List.length_append, lit_space_length, List.length_nil]; omega
  have h2 : ¬ (p ++ lit " " ++ q).length > maxChars := by
    simp only [List.length_append, lit_space_length]; omega
  have hne : p ++ lit "\n\n" ++ q ≠ [] := by
    rw [hp1]; simp
  have hstep1 : chunkStep maxChars [] [] p = some (p, []) := by
    unfold chunkStep
    rw [if_neg h1]
    simp
  have hstep2 : chunkStep maxChars p [] q = some (p ++ lit "\n\n" ++ q, []) := by
    unfold chunkStep
    rw [if_neg h2, if_pos hp]
  simp only [chunkText, paragraphs_two p q hp hq hps hqs, chunkLoop, hstep1, hstep2, if_pos hne,
    htrim, List.nil_append]
  rfl

/-- With the default `CHUNK_MAX_CHARS`, a paragraph of 599 letters `a` followed
by one of 600 letters `b` is returned as one chunk of 1201 units. -/
theorem chunkText_exceeds_default :
    chunkText (List.replicate 599 97 ++ [10] ++ List.replicate 600 98) CHUNK_MAX_CHARS
        = some [List.replicate 599 97 ++ [10, 10] ++ List.replicate 600 98] ∧
      (List.replicate 599 97 ++ [10, 10] ++ List.replicate 600 98).length
        = CHUNK_MAX_CHARS + 1 := by
  have hne : ∀ (n c : Nat), 0 < n → List.replicate n c ≠ [] := by
    intro n c hn h
    have := congrArg List.length h
    rw [List.length_replicate, List.length_nil] at this
    omega
  apply chunkText_two_paragraphs
  · exact hne 599 97 (by omega)
  · exact hne 600 98 (by omega)
  · intro c hc
    rw [(List.mem_replicate.mp hc).2]; decide
  · intro c hc
    rw [(List.mem_replicate.mp hc).2]; decide
  · rw [List.length_replicate, List.length_replicate]
    rfl

/-- Counting tokens: the raw count of a term other than `constructor` grows by
its number of occurrences. -/
theorem getOwn_foldl_bump_count (tokens : List Str) (t : Str) (ht : t ≠ lit "constructor") :
    ∀ (o : List (Str × Cell)) (n : Nat), getOwn o t = countCell n →
      getOwn (tokens.foldl bump o) t = countCell (n + tokens.count t) := by
  induction tokens with
  | nil => intro o n h; simpa using h
  | cons k rest ih =>
    intro o n h
    rw [List.foldl_cons]
    by_cases hkt : k = t
    · subst hkt
      rw [ih (bump o k) (n + 1) (getOwn_bump_same o k n ht h), List.count_cons_self]
      congr 1
      omega
    · rw [ih (bump o k) n (by rw [getOwn_bump_other o k t hkt]; exact h),
        List.count_cons_of_ne (Ne.symm hkt)]

theorem keys_setProp {α : Type} (o : List (Str × α)) (k : Str) (v : α) :
    (setProp o k v).map Prod.fst
      = if k ∈ o.map Prod.fst then o.map Prod.fst else o.map Prod.fst ++ [k] := by
  induction o with
  | nil => simp [setProp]
  | cons e rest ih =>
    obtain ⟨k1, v1⟩ := e
    by_cases h1 : k1 = k
    · subst h1
      simp [setProp]
    · have h2 : ¬ k = k1 := fun e => h1 e.symm
      simp only [setProp, if_neg h1, List.map_cons, ih, List.mem_cons, h2, false_or]
      by_cases h3 : k ∈ rest.map Prod.fst
      · simp only [if_pos h3]
      · simp only [if_neg h3, List.cons_append]

theorem nodup_keys_foldl_bump (tokens : List Str) :
    ∀ o : List (Str × Cell), (o.map Prod.fst).Nodup →
      ((tokens.foldl bump o).map Prod.fst).Nodup := by
  induction tokens with
  | nil => intro o h; exact h
  | cons k rest ih =>
    intro o h
    rw [List.foldl_cons]
    apply ih
    unfold bump
    rw [keys_setProp]
    by_cases hk : k ∈ o.map Prod.fst
    · rw [if_pos hk]; exact h
    · rw [if_neg hk]
      exact List.Nodup.append h (List.nodup_singleton k) (by simpa using hk)

theorem getOwn_of_mem {α : Type} (o : List (Str × α)) (h : (o.map Prod.fst).Nodup) (k : Str)
    (v : α) (hmem : (k, v) ∈ o) : getOwn o k = some v := by
  induction o with
  | nil => simp at hmem
  | cons e rest ih =>
    obtain ⟨k1, v1⟩ := e
    simp only [List.map_cons, List.nodup_cons] at h
    rcases List.mem_cons.mp hmem with he | he
    · cases he
      simp [getOwn]
    · have hne : k1 ≠ k := by
        intro e
        subst e
        exact h.1 (List.mem_map.mpr ⟨(k1, v), he, rfl⟩)
      simp only [getOwn, if_neg hne]
      exact ih h.2 he

theorem getOwn_rawTf (tokens : List Str) (t : Str) (ht : t ≠ lit "constructor") :
    getOwn (Upload.rawTf tokens) t = countCell (tokens.count t) := by
  have := getOwn_foldl_bump_count tokens t ht [] 0 rfl
  simpa [Upload.rawTf] using this

theorem mathMaxWithOne_bounds (vals : List Cell) (m : Nat) (h : mathMaxWithOne vals = some m) :
    1 ≤ m ∧ (∀ n, Cell.count n ∈ vals → n ≤ m) ∧ (m = 1 ∨ Cell.count m ∈ vals) := by
  induction vals generalizing m with
  | nil =>
    simp only [mathMaxWithOne, Option.some.injEq] at h
    subst h
    exact ⟨le_refl 1, by simp, Or.inl rfl⟩
  | cons v rest ih =>
    cases v with
    | fnText k => simp [mathMaxWithOne] at h
    | count k =>
      cases hrest : mathMaxWithOne rest with
      | none => simp [mathMaxWithOne, hrest] at h
      | some m' =>
        simp only [mathMaxWithOne, hrest, Option.map_some', Option.some.injEq] at h
        subst h
        obtain ⟨h1, h2, h3⟩ := ih m' hrest
        refine ⟨le_trans h1 (le_max_right k m'), ?_, ?_⟩
        · intro n hn
          rcases List.mem_cons.mp hn with hn | hn
          · cases hn; exact le_max_left _ _
          · exact le_trans (h2 n hn) (le_max_right k m')
        · rcases le_total k m' with hk | hk
          · rw [max_eq_right hk]
            rcases h3 with h3 | h3
            · exact Or.inl h3
            · exact Or.inr (List.mem_cons_of_mem _ h3)
          · rw [max_eq_left hk]
            exact Or.inr (List.mem_cons_self _ _)

/-- What C9 says, for a chunk without the token `constructor`: the stored
frequency of every token is its number of occurrences divided by the largest
number of occurrences `M` of a token. -/
theorem tf_exact (tokens : List Str) (hctor : lit "constructor" ∉ tokens) (hne : tokens ≠ []) :
    ∃ M : Nat, (∀ t ∈ tokens, tokens.count t ≤ M) ∧ (∃ t ∈ tokens, tokens.count t = M) ∧
      ∀ t ∈ tokens, getOwn (Upload.normalise (Upload.rawTf tokens)) t
        = some (.num ((tokens.count t : ℚ) / (M : ℚ))) := by
  have hcounts : ∀ kv ∈ Upload.rawTf tokens, ∃ n, 1 ≤ n ∧ kv.2 = Cell.count n :=
    counts_foldl_bump tokens hctor [] (by simp)
  obtain ⟨M, _, hmax⟩ := mathMaxWithOne_of_counts ((Upload.rawTf tokens).map Prod.snd) (by
    intro v hv
    obtain ⟨kv, hkv, rfl⟩ := List.mem_map.mp hv
    exact hcounts kv hkv)
  obtain ⟨hM1, hM2, hM3⟩ := mathMaxWithOne_bounds _ M hmax
  have hkey : ∀ t ∈ tokens, getOwn (Upload.rawTf tokens) t = some (.count (tokens.count t)) := by
    intro t ht
    rw [getOwn_rawTf tokens t (fun e => hctor (e ▸ ht))]
    obtain ⟨n, hn⟩ : ∃ n, tokens.count t = n + 1 :=
      ⟨tokens.count t - 1, by have := List.count_pos_iff.mpr ht; omega⟩
    rw [hn]; rfl
  have hle : ∀ t ∈ tokens, tokens.count t ≤ M := by
    intro t ht
    apply hM2
    exact List.mem_map.mpr ⟨(t, .count (tokens.count t)), getOwn_mem _ t _ (hkey t ht), rfl⟩
  refine ⟨M, hle, ?_, ?_⟩
  · rcases hM3 with h | h
    · obtain ⟨t, rest, hcons⟩ := List.exists_cons_of_ne_nil hne
      have ht : t ∈ tokens := by rw [hcons]; exact List.mem_cons_self _ _
      have := List.count_pos_iff.mpr ht
      have := hle t ht
      exact ⟨t, ht, by omega⟩
    · obtain ⟨kv, hkv, hkv2⟩ := List.mem_map.mp h
      rcases keys_foldl_bump tokens [] kv hkv with hk | ⟨_, hk, _⟩
      · have h1 := hkey kv.1 hk
        have h2 : getOwn (Upload.rawTf tokens) kv.1 = some kv.2 :=
          getOwn_of_mem _ (nodup_keys_foldl_bump tokens [] List.nodup_nil) kv.1 kv.2 hkv
        rw [h1, hkv2] at h2
        simp only [Option.some.injEq, Cell.count.injEq] at h2
        exact ⟨kv.1, hk, h2⟩
      · simp at hk
  · intro t ht
    unfold Upload.normalise
    rw [getOwn_map, hkey t ht]
    simp only [hmax]

theorem getOwn_df_indexChunks (lower : Str → Str) (docId : Str) (uuid : Nat → Str)
    (chunks : List Str) (t : Str) (ht : t ≠ lit "constructor") :
    ∀ (i : Nat) (store : Store) (n : Nat), getOwn store.df t = countCell n →
      getOwn (Upload.indexChunks lower docId uuid i chunks store).df t
        = countCell (n + chunks.countP fun c => decide (t ∈ tokenize lower c)) := by
  induction chunks with
  | nil => intro i store n h; simpa [Upload.indexChunks] using h
  | cons c rest ih =>
    intro i store n h
    have hstep : getOwn (Upload.indexChunk lower docId store (uuid (i + 1)) c).df t
        = countCell (n + if t ∈ tokenize lower c then 1 else 0) := by
      have := getOwn_foldl_bump (Upload.seenTerms (tokenize lower c)) t ht
        (nodup_seenTerms _) store.df n h
      simpa [Upload.indexChunk, mem_seenTerms] using this
    rw [Upload.indexChunks, ih (i + 1) _ _ hstep, List.countP_cons]
    congr 1
    by_cases hmem : t ∈ tokenize lower c
    · simp [hmem]; omega
    · simp [hmem]

/-- One upload adds to the document frequency of a term other than
`constructor` the number of chunks of the text that hold it. -/
theorem getOwn_df_stored (lower : Str → Str) (uuid : Nat → Str) (name now : Str) (store : Store)
    (text : Str) (t : Str) (ht : t ≠ lit "constructor") (n : Nat)
    (h : getOwn store.df t = countCell n) :
    getOwn (Upload.stored lower uuid name now store text).df t
      = countCell (n + chunksWith lower text t) := by
  unfold Upload.stored Upload.handler chunksWith
  by_cases hg : text = [] ∨ (trim text).length = 0
  · simp only [if_pos hg]
    simpa using h
  · simp only [if_neg hg]
    obtain ⟨chunks, hch⟩ := chunkText_default_returns text
    simp only [hch]
    exact getOwn_df_indexChunks lower (uuid 0) uuid chunks t ht 0 store n h

/-- What C10 says, for a term other than `constructor` whose document frequency is
a count `n` (no entry for 0): two uploads of the same text add twice what one
upload adds. -/
theorem df_doubles (lower : Str → Str) (uuid uuid2 : Nat → Str) (name now name2 now2 : Str)
    (store : Store) (text : Str) (t : Str) (ht : t ≠ lit "constructor") (n : Nat)
    (h : getOwn store.df t = countCell n) :
    getOwn (Upload.stored lower uuid name now store text).df t
        = countCell (n + chunksWith lower text t) ∧
      getOwn (Upload.stored lower uuid2 name2 now2
          (Upload.stored lower uuid name now store text) text).df t
        = countCell (n + 2 * chunksWith lower text t) := by
  have h1 := getOwn_df_stored lower uuid name now store text t ht n h
  have h2 := getOwn_df_stored lower uuid2 name2 now2 _ text t ht _ h1
  refine ⟨h1, ?_⟩
  rw [h2]
  congr 1
  omega


/-! ## Further properties of the chunker -/

theorem sliceLoop_step (maxChars fuel : Nat) (buf : Str) (chunks : List Str)
    (h : buf.length > maxChars) :
    sliceLoop maxChars (fuel + 1) buf chunks
      = sliceLoop maxChars fuel (buf.drop maxChars) (chunks ++ [trim (buf.take maxChars)]) := by
  rw [sliceLoop, if_pos h]

theorem sliceLoop_stop (maxChars fuel : Nat) (buf : Str) (chunks : List Str)
    (h : ¬ buf.length > maxChars) :
    sliceLoop maxChars (fuel + 1) buf chunks = some (buf, chunks) := by
  rw [sliceLoop, if_neg h]

theorem ceil_step (L M : Nat) (hM : 1 ≤ M) (h : L > M) :
    (L - M + M - 1) / M + 1 = (L + M - 1) / M := by
  have h1 : L + M - 1 = (L - M + M - 1) + M := by omega
  rw [h1, Nat.add_div_right _ (by omega : 0 < M)]

/-- The inner loop with `maxChars ≥ 1` and more fuel than `⌈length / maxChars⌉`:
it ends after `k ≤ ⌈length / maxChars⌉` iterations, each of which pushes one
chunk and takes `maxChars` units off the buffer. -/
theorem sliceLoop_iterations (maxChars : Nat) (hm : 1 ≤ maxChars) :
    ∀ (fuel : Nat) (buf : Str) (chunks : List Str),
      (buf.length + maxChars - 1) / maxChars < fuel →
      ∃ k buf' chunks', sliceLoop maxChars fuel buf chunks = some (buf', chunks') ∧
        chunks'.length = chunks.length + k ∧ buf'.length + k * maxChars = buf.length ∧
        k ≤ (buf.length + maxChars - 1) / maxChars := by
  intro fuel
  induction fuel with
  | zero => intro buf chunks h; exact absurd h (Nat.not_lt_zero _)
  | succ fuel ih =>
    intro buf chunks hfuel
    by_cases hlen : buf.length > maxChars
    · have hceil := ceil_step buf.length maxChars hm hlen
      have hdrop : (buf.drop maxChars).length = buf.length - maxChars := List.length_drop _ _
      obtain ⟨k, buf', chunks', h1, h2, h3, h4⟩ :=
        ih (buf.drop maxChars) (chunks ++ [trim (buf.take maxChars)]) (by rw [hdrop]; omega)
      refine ⟨k + 1, buf', chunks', ?_, ?_, ?_, ?_⟩
      · rw [sliceLoop_step maxChars fuel buf chunks hlen, h1]
      · rw [h2, List.length_append, List.length_singleton]; omega
      · rw [hdrop] at h3
        rw [Nat.add_mul, one_mul]; omega
      · rw [hdrop] at h4; omega
    · exact ⟨0, buf, chunks, sliceLoop_stop maxChars fuel buf chunks hlen, rfl, by simp,
        Nat.zero_le _⟩

theorem paragraphs_one (p : Str) (c : Nat) (rest : Str) (d : Nat) (front : Str)
    (h1 : p = c :: rest) (h2 : p = front ++ [d]) (hc : isSpace c = false)
    (hd : isSpace d = false) (hnl : ∀ x ∈ p, isNewline x = false) :
    paragraphs p = [p] := by
  have hne : p ≠ [] := by rw [h1]; exact List.cons_ne_nil _ _
  have hsplit : splitRuns isNewline p = [p] := by
    have := splitRunsAux_append isNewline p hnl hne [] false []
    simpa [splitRuns, splitRunsAux] using this
  unfold paragraphs
  rw [hsplit]
  simp [trim_of_ends p c rest d front h1 h2 hc hd, hne]

/-- A paragraph of `maxChars` letters, `maxChars` spaces and one more letter is
cut into the letters, an empty chunk and the last letter. -/
theorem chunkText_blank_slice (maxChars : Nat) (hm : 1 ≤ maxChars) :
    chunkText (List.replicate maxChars 97 ++ List.replicate maxChars 32 ++ [98]) maxChars
      = some [List.replicate maxChars 97, [], [98]] := by
  obtain ⟨m, rfl⟩ : ∃ m, maxChars = m + 1 := ⟨maxChars - 1, by omega⟩
  have hpara : paragraphs (List.replicate (m + 1) 97 ++ List.replicate (m + 1) 32 ++ [98])
      = [List.replicate (m + 1) 97 ++ List.replicate (m + 1) 32 ++ [98]] := by
    apply paragraphs_one _ 97 (List.replicate m 97 ++ List.replicate (m + 1) 32 ++ [98]) 98
      (List.replicate (m + 1) 97 ++ List.replicate (m + 1) 32)
    · simp [List.replicate_succ]
    · rfl
    · decide
    · decide
    · intro x hx
      simp only [List.mem_append, List.mem_replicate, List.mem_singleton] at hx
      rcases hx with (⟨_, rfl⟩ | ⟨_, rfl⟩) | rfl <;> decide
  have hlen : (List.replicate (m + 1) 97 ++ List.replicate (m + 1) 32 ++ [98]).length
      = 2 * m + 3 := by
    simp only [List.length_append, List.length_replicate, List.length_singleton]; omega
  have htake1 : (List.replicate (m + 1) 97 ++ List.replicate (m + 1) 32 ++ [98]).take (m + 1)
      = List.replicate (m + 1) 97 := by
    rw [List.append_assoc]
    exact List.take_left' (List.length_replicate _ _)
  have hdrop1 : (List.replicate (m + 1) 97 ++ List.replicate (m + 1) 32 ++ [98]).drop (m + 1)
      = List.replicate (m + 1) 32 ++ [98] := by
    rw [List.append_assoc]
    exact List.drop_left' (List.length_replicate _ _)
  have htake2 : (List.replicate (m + 1) 32 ++ [98]).take (m + 1) = List.replicate (m + 1) 32 :=
    List.take_left' (List.length_replicate _ _)
  have hdrop2 : (List.replicate (m + 1) 32 ++ [98]).drop (m + 1) = [98] :=
    List.drop_left' (List.length_replicate _ _)
  have htrim1 : trim (List.replicate (m + 1) 97) = List.replicate (m + 1) 97 := by
    apply trim_of_no_space
    intro x hx
    rw [(List.mem_replicate.mp hx).2]; decide
  have htrim2 : trim (List.replicate (m + 1) 32) = [] := by
    apply trim_eq_nil_of_spaces
    intro x hx
    rw [(List.mem_replicate.mp hx).2]; decide
  have hloop : sliceLoop (m + 1) (2 * m + 1 + 1 + 1 + 1)
      (List.replicate (m + 1) 97 ++ List.replicate (m + 1) 32 ++ [98]) []
      = some ([98], [List.replicate (m + 1) 97, []]) := by
    rw [sliceLoop_step _ _ _ _ (by rw [hlen]; omega), htake1, hdrop1, htrim1,
      sliceLoop_step _ _ _ _ (by
        simp only [List.length_append, List.length_replicate, List.length_singleton]; omega),
      htake2, hdrop2, htrim2,
      sliceLoop_stop _ _ _ _ (by simp only [List.length_singleton]; omega)]
    rfl
  have hstep : chunkStep (m + 1) [] []
      (List.replicate (m + 1) 97 ++ List.replicate (m + 1) 32 ++ [98])
      = some ([98], [List.replicate (m + 1) 97, []]) := by
    have hgt : (([] : Str) ++ lit " " ++
        (List.replicate (m + 1) 97 ++ List.replicate (m + 1) 32 ++ [98])).length > m + 1 := by
      rw [List.length_append, hlen]; omega
    unfold chunkStep
    rw [if_pos hgt, hlen]
    simpa using hloop
  simp only [chunkText, hpara, chunkLoop, hstep]
  rfl

theorem indexChunks_texts (lower : Str → Str) (docId : Str) (uuid : Nat → Str)
    (chunks : List Str) :
    ∀ (i : Nat) (store : Store),
      (Upload.indexChunks lower docId uuid i chunks store).chunks.map (fun c => c.text)
        = store.chunks.map (fun c => c.text) ++ chunks := by
  induction chunks with
  | nil => intro i store; simp [Upload.indexChunks]
  | cons c rest ih =>
    intro i store
    rw [Upload.indexChunks, ih]
    simp [Upload.indexChunk]

/-- The texts of the chunk records an upload adds are the chunks of the text. -/
theorem stored_texts (lower : Str → Str) (uuid : Nat → Str) (name now : Str) (store : Store)
    (text : Str) (chunks : List Str) (hg : ¬ (text = [] ∨ (trim text).length = 0))
    (hch : chunkText text CHUNK_MAX_CHARS = some chunks) :
    (Upload.stored lower uuid name now store text).chunks.map (fun c => c.text)
      = store.chunks.map (fun c => c.text) ++ chunks := by
  simp only [Upload.stored, Upload.handler, if_neg hg, hch]
  exact indexChunks_texts lower (uuid 0) uuid chunks 0 store

/-- With the default `CHUNK_MAX_CHARS`, the upload of 1200 letters, 1200 spaces
and one letter stores a chunk record with the empty text. -/
theorem stored_empty_chunk (lower : Str → Str) (uuid : Nat → Str) (name now : Str) :
    (Upload.stored lower uuid name now emptyStore
        (List.replicate CHUNK_MAX_CHARS 97 ++ List.replicate CHUNK_MAX_CHARS 32 ++ [98])).chunks.map
        (fun c => c.text)
      = [List.replicate CHUNK_MAX_CHARS 97, [], [98]] := by
  have hch := chunkText_blank_slice CHUNK_MAX_CHARS (by decide)
  rw [stored_texts lower uuid name now emptyStore _ _ ?_ hch]
  · rfl
  · apply not_blank_guard
    exact ⟨98, by simp, by decide⟩

/-! ## Further properties of retrieval -/

theorem dotProductFrom_absent (b : List (Str × Num)) (a : List (Str × Num))
    (h : ∀ kv ∈ a, getOwn b kv.1 = none) :
    ∀ sum : Num, Chat.dotProductFrom b sum a = sum ∨ Chat.dotProductFrom b sum a = none := by
  induction a with
  | nil => intro sum; exact Or.inl rfl
  | cons kv rest ih =>
    intro sum
    obtain ⟨k, x⟩ := kv
    have hk : getOwn b k = none := h (k, x) (List.mem_cons_self _ _)
    have hrest := ih (fun kv hkv => h kv (List.mem_cons_of_mem _ hkv))
    by_cases hc : k = lit "constructor"
    · have : Chat.dotProductFrom b sum ((k, x) :: rest)
          = Chat.dotProductFrom b (Num.add sum none) rest := by
        subst hc
        simp [Chat.dotProductFrom, getProp, hk]
      rw [this]
      have hnone : Num.add sum none = none := by cases sum <;> rfl
      rw [hnone]
      rcases hrest none with h1 | h1 <;> exact Or.inr h1
    · have : Chat.dotProductFrom b sum ((k, x) :: rest) = Chat.dotProductFrom b sum rest := by
        simp [Chat.dotProductFrom, getProp, hk, hc]
      rw [this]
      exact hrest sum

/-- A chunk whose `tf` has none of the keys of the query vector scores 0. -/
theorem score_eq_zero_of_all_absent (store : Store) (qVec : List (Str × Num)) (d : ChunkRecord)
    (h : ∀ kv ∈ qVec, getOwn d.tf kv.1 = none) :
    (Chat.scoreChunk qVec store d).score = 0 := by
  have hdot := dotProductFrom_absent (Chat.computeChunkTfIdfVec d.tf store) qVec (by
    intro kv hkv
    rw [getOwn_chunkVec, h kv hkv]) (some 0)
  unfold Chat.scoreChunk
  simp only
  rcases hdot with hdot | hdot
  · rw [Chat.dotProduct, hdot]
    cases Num.mul (Chat.norm qVec) (Chat.norm (Chat.computeChunkTfIdfVec d.tf store)) with
    | none => rfl
    | some y => simp [Num.div]
  · rw [Chat.dotProduct, hdot]
    rfl

theorem keys_computeQueryTfIdf (tokens : List Str) (store : Store) :
    ∀ kv ∈ Chat.computeQueryTfIdf tokens store, kv.1 ∈ tokens := by
  intro kv hkv
  unfold Chat.computeQueryTfIdf at hkv
  obtain ⟨kv0, hkv0, rfl⟩ := List.mem_map.mp hkv
  rcases keys_foldl_bump tokens [] kv0 hkv0 with h | ⟨_, h, _⟩
  · exact h
  · simp at h

/-- The response of the chat handler to a query that passes the three first
tests, in terms of the array `top`. -/
theorem handler_eq_top (lower : Str → Str) (store : Store) (message : Str)
    (topK : Option Nat) (docs : Option (List Str)) (hne : store.chunks ≠ [])
    (hmsg : message ≠ []) (htok : tokenize lower message ≠ []) :
    Chat.handler lower store (some message) topK docs
      = if (Chat.topOf lower store message topK docs).length = 0 then
          .answer "No relevant content found in uploaded materials."
        else .sources ((Chat.topOf lower store message topK docs).take (topK.getD 3)) := by
  have hlen : ¬ store.chunks.length = 0 := fun e => hne (List.length_eq_zero.mp e)
  have htl : ¬ (tokenize lower message).length = 0 := fun e => htok (List.length_eq_zero.mp e)
  unfold Chat.handler
  rw [if_neg hlen]
  simp only [if_neg hmsg, if_neg htl]
  rfl

theorem topOf_sublist (lower : Str → Str) (store : Store) (message : Str) (topK : Option Nat)
    (docs : Option (List Str)) :
    (Chat.topOf lower store message topK docs).Sublist
      ((Chat.scoredOf lower store message docs).insertionSort fun a b => a.score ≥ b.score) :=
  (List.filter_sublist _).trans (List.take_sublist _ _)

theorem topOf_length_le (lower : Str → Str) (store : Store) (message : Str) (topK : Option Nat)
    (docs : Option (List Str)) :
    (Chat.topOf lower store message topK docs).length ≤ topK.getD 3 := by
  unfold Chat.topOf
  exact le_trans (List.length_filter_le _ _) (List.length_take_le _ _)

theorem take_topOf (lower : Str → Str) (store : Store) (message : Str) (topK : Option Nat)
    (docs : Option (List Str)) :
    (Chat.topOf lower store message topK docs).take (topK.getD 3)
      = Chat.topOf lower store message topK docs :=
  List.take_of_length_le (topOf_length_le lower store message topK docs)

theorem mem_scoredOf (lower : Str → Str) (store : Store) (message : Str)
    (docs : Option (List Str)) (e : Chat.Scored)
    (he : e ∈ Chat.scoredOf lower store message docs) :
    ∃ d ∈ store.chunks, Chat.skipped docs d = false ∧
      e = Chat.scoreChunk (Chat.computeQueryTfIdf (tokenize lower message) store) store d := by
  unfold Chat.scoredOf at he
  obtain ⟨d, hd, rfl⟩ := List.mem_map.mp he
  obtain ⟨hd1, hd2⟩ := List.mem_filter.mp hd
  exact ⟨d, hd1, by simpa using hd2, rfl⟩

theorem mem_topOf (lower : Str → Str) (store : Store) (message : Str) (topK : Option Nat)
    (docs : Option (List Str)) (e : Chat.Scored)
    (he : e ∈ Chat.topOf lower store message topK docs) :
    e ∈ Chat.scoredOf lower store message docs ∧ 0 < e.score := by
  refine ⟨?_, ?_⟩
  · exact (List.perm_insertionSort _ _).subset
      ((topOf_sublist lower store message topK docs).subset he)
  · unfold Chat.topOf at he
    simpa using (List.mem_filter.mp he).2

/-- The sort keeps the entries of equal score in the order of `scored`. -/
theorem insertionSort_filter_eq (l : List Chat.Scored) (s : ℝ) :
    (l.insertionSort fun a b => a.score ≥ b.score).filter (fun e => decide (e.score = s))
      = l.filter fun e => decide (e.score = s) := by
  have hpair : (l.filter fun e => decide (e.score = s)).Pairwise
      fun a b : Chat.Scored => a.score ≥ b.score := by
    apply List.pairwise_of_forall_mem_list
    intro a ha b hb
    have h1 : a.score = s := by simpa using (List.mem_filter.mp ha).2
    have h2 : b.score = s := by simpa using (List.mem_filter.mp hb).2
    rw [h1, h2]
  have hsub : (l.filter fun e => decide (e.score = s)).Sublist
      (l.insertionSort fun a b => a.score ≥ b.score) :=
    List.sublist_insertionSort hpair (List.filter_sublist _)
  have hsub2 := hsub.filter (fun e => decide (e.score = s))
  rw [List.filter_filter] at hsub2
  simp only [Bool.and_self] at hsub2
  have hlen := ((List.perm_insertionSort (fun a b : Chat.Scored => a.score ≥ b.score) l).filter
    (fun e => decide (e.score = s))).length_eq
  exact (hsub2.eq_of_length hlen.symm).symm

theorem sorted_insertionSort_score (l : List Chat.Scored) :
    (l.insertionSort fun a b => a.score ≥ b.score).Pairwise
      fun a b : Chat.Scored => a.score ≥ b.score := by
  haveI : IsTotal Chat.Scored (fun a b : Chat.Scored => a.score ≥ b.score) :=
    ⟨fun a b => le_total b.score a.score⟩
  haveI : IsTrans Chat.Scored (fun a b : Chat.Scored => a.score ≥ b.score) :=
    ⟨fun a b c hab hbc => le_trans hbc hab⟩
  exact List.sorted_insertionSort _ l

theorem skipped_eq_false (ds : List Str) (hds : ds ≠ []) (d : ChunkRecord)
    (h : Chat.skipped (some ds) d = false) : d.docId ∈ ds := by
  have hpos : ds.length > 0 := List.length_pos.mpr hds
  simp only [Chat.skipped, hpos, decide_True, Bool.true_and, Bool.not_eq_false'] at h
  simpa using h

theorem skipped_eq_true (ds : List Str) (hds : ds ≠ []) (d : ChunkRecord)
    (h : d.docId ∉ ds) : Chat.skipped (some ds) d = true := by
  have hpos : ds.length > 0 := List.length_pos.mpr hds
  simp only [Chat.skipped, hpos, decide_True, Bool.true_and, Bool.not_eq_true']
  simpa using h

theorem handler_filter_nil (lower : Str → Str) (store : Store) (message : Option Str)
    (topK : Option Nat) :
    Chat.handler lower store message topK (some []) = Chat.handler lower store message topK none := by
  have h : ∀ chunk : ChunkRecord, Chat.skipped (some []) chunk = Chat.skipped none chunk := by
    intro chunk; simp [Chat.skipped]
  unfold Chat.handler
  simp only [h]

theorem oneChunkStore_chunks : oneChunkStore.chunks = [oneChunkRecord] := rfl

/-! ## The bounds of the score -/

theorem foldl_sq_none (a : List (Str × Num)) :
    a.foldl (fun s kv => Num.add s (Num.mul kv.2 kv.2)) none = none := by
  induction a with
  | nil => rfl
  | cons kv rest ih => rw [List.foldl_cons]; exact ih

theorem foldl_sq_eq_some (a : List (Str × Num)) :
    ∀ s0 r : ℝ, a.foldl (fun s kv => Num.add s (Num.mul kv.2 kv.2)) (some s0) = some r →
      ∃ l : List (Str × ℝ), a = Chat.finite l ∧ r = s0 + (l.map fun kv => kv.2 * kv.2).sum := by
  induction a with
  | nil =>
    intro s0 r h
    simp only [List.foldl_nil, Option.some.injEq] at h
    exact ⟨[], rfl, by simp [h]⟩
  | cons kv rest ih =>
    intro s0 r h
    obtain ⟨k, v⟩ := kv
    rw [List.foldl_cons] at h
    cases v with
    | none =>
      have : Num.add (some s0) (Num.mul (none : Num) none) = none := rfl
      simp only [this, foldl_sq_none] at h
      cases h
    | some x =>
      have : Num.add (some s0) (Num.mul (some x) (some x)) = some (s0 + x * x) := rfl
      simp only [this] at h
      obtain ⟨l, hl, hr⟩ := ih (s0 + x * x) r h
      refine ⟨(k, x) :: l, ?_, ?_⟩
      · rw [hl]; rfl
      · rw [hr, List.map_cons, List.sum_cons]; ring

theorem norm_eq_some (a : List (Str × Num)) (v : ℝ) (h : Chat.norm a = some v) :
    ∃ l : List (Str × ℝ), a = Chat.finite l ∧
      v = Real.sqrt ((l.map fun kv => kv.2 * kv.2).sum) + 1e-10 := by
  unfold Chat.norm at h
  cases hf : a.foldl (fun s kv => Num.add s (Num.mul kv.2 kv.2)) (some 0) with
  | none => rw [hf] at h; cases h
  | some r =>
    rw [hf] at h
    simp only [Option.some.injEq] at h
    obtain ⟨l, hl, hr⟩ := foldl_sq_eq_some a 0 r hf
    refine ⟨l, hl, ?_⟩
    rw [← h, hr, zero_add]

theorem dotProductFrom_none (b a : List (Str × Num)) : Chat.dotProductFrom b none a = none := by
  induction a with
  | nil => rfl
  | cons kv rest ih =>
    obtain ⟨k, x⟩ := kv
    unfold Chat.dotProductFrom
    have hadd : ∀ z : Num, Num.add none z = none := fun z => rfl
    cases getProp b k with
    | own v =>
      cases v with
      | none => exact ih
      | some y =>
        by_cases hy : y ≠ 0
        · simp only [if_pos hy, hadd]; exact ih
        · simp only [if_neg hy]; exact ih
    | objectFn => simp only [hadd]; exact ih
    | undefined => exact ih

theorem getOwn_finite (lc : List (Str × ℝ)) (k : Str) :
    getOwn (Chat.finite lc) k = (getOwn lc k).map some := by
  unfold Chat.finite
  rw [getOwn_map (fun kv => (some kv.2 : Num)) lc k]
  cases getOwn lc k <;> rfl

/-- The dot product of two vectors without `NaN`, when it is a number: the sum
over the keys of the first of the products with the entry of the second, 0 when
there is none. -/
theorem dotProductFrom_finite (lc : List (Str × ℝ)) (lq : List (Str × ℝ)) :
    ∀ s D : ℝ, Chat.dotProductFrom (Chat.finite lc) (some s) (Chat.finite lq) = some D →
      D = s + (lq.map fun kv => kv.2 * (getOwn lc kv.1).getD 0).sum := by
  induction lq with
  | nil =>
    intro s D h
    simp only [Chat.finite, List.map_nil, Chat.dotProductFrom, Option.some.injEq] at h
    simp [h]
  | cons kv rest ih =>
    intro s D h
    obtain ⟨k, x⟩ := kv
    have hcons : Chat.finite ((k, x) :: rest) = (k, some x) :: Chat.finite rest := rfl
    rw [hcons] at h
    unfold Chat.dotProductFrom at h
    rw [List.map_cons, List.sum_cons]
    cases hget : getOwn lc k with
    | none =>
      have hown : getOwn (Chat.finite lc) k = none := by rw [getOwn_finite, hget]; rfl
      by_cases hc : k = lit "constructor"
      · have hp : getProp (Chat.finite lc) k = Lookup.objectFn := by
          subst hc
          simp [getProp, hown]
        rw [hp] at h
        have hnone : Num.add (some s) none = none := rfl
        simp only [hnone, dotProductFrom_none] at h
        cases h
      · have hp : getProp (Chat.finite lc) k = Lookup.undefined := by
          simp [getProp, hown, hc]
        rw [hp] at h
        simp only at h
        rw [ih s D h]
        simp
    | some y =>
      have hown : getOwn (Chat.finite lc) k = some (some y) := by rw [getOwn_finite, hget]; rfl
      have hp : getProp (Chat.finite lc) k = Lookup.own (some y) := by
        simp [getProp, hown]
      rw [hp] at h
      simp only at h
      by_cases hy : y ≠ 0
      · rw [if_pos hy] at h
        have hadd : Num.add (some s) (Num.mul (some x) (some y)) = some (s + x * y) := rfl
        rw [hadd] at h
        rw [ih (s + x * y) D h]
        simp only [Option.getD_some]
        ring
      · rw [if_neg hy] at h
        have hy0 : y = 0 := not_not.mp hy
        rw [ih s D h, hy0]
        simp

theorem list_cauchy_schwarz {α : Type} (l : List α) (f g : α → ℝ) :
    ((l.map fun a => f a * g a).sum) ^ 2
      ≤ (l.map fun a => f a ^ 2).sum * (l.map fun a => g a ^ 2).sum := by
  rw [← Fin.sum_univ_get' l (fun a => f a * g a), ← Fin.sum_univ_get' l (fun a => f a ^ 2),
    ← Fin.sum_univ_get' l (fun a => g a ^ 2)]
  exact Finset.sum_mul_sq_le_sq_mul_sq Finset.univ _ _

/-- The squares of the entries of a vector found under distinct keys add up to
at most the sum of the squares of all its entries. -/
theorem sum_sq_getD_le (lc : List (Str × ℝ)) :
    ∀ ks : List Str, ks.Nodup →
      (ks.map fun k => ((getOwn lc k).getD 0) ^ 2).sum ≤ (lc.map fun kv => kv.2 ^ 2).sum := by
  induction lc with
  | nil =>
    intro ks _
    have : (ks.map fun k => ((getOwn ([] : List (Str × ℝ)) k).getD 0) ^ 2) = ks.map fun _ => 0 := by
      apply List.map_congr_left
      intro k _
      simp [getOwn]
    rw [this]
    simp
  | cons e rest ih =>
    intro ks hnd
    obtain ⟨k0, y0⟩ := e
    simp only [List.map_cons, List.sum_cons]
    have hcongr : ∀ l : List Str, k0 ∉ l →
        (l.map fun k => ((getOwn ((k0, y0) :: rest) k).getD 0) ^ 2)
          = l.map fun k => ((getOwn rest k).getD 0) ^ 2 := by
      intro l hl
      apply List.map_congr_left
      intro k hk
      have hne : k0 ≠ k := fun e => hl (e ▸ hk)
      simp [getOwn, hne]
    by_cases hk0 : k0 ∈ ks
    · obtain ⟨a, b, rfl⟩ := List.append_of_mem hk0
      have hnd2 : (k0 :: (a ++ b)).Nodup := List.nodup_middle.mp hnd
      obtain ⟨hnot, hnd3⟩ := List.nodup_cons.mp hnd2
      have hperm : (a ++ k0 :: b).Perm (k0 :: (a ++ b)) := List.perm_middle
      have hsum := (hperm.map fun k => ((getOwn ((k0, y0) :: rest) k).getD 0) ^ 2).sum_eq
      rw [hsum, List.map_cons, List.sum_cons, hcongr (a ++ b) hnot]
      have hhead : ((getOwn ((k0, y0) :: rest) k0).getD 0) ^ 2 = y0 ^ 2 := by simp [getOwn]
      rw [hhead]
      have := ih (a ++ b) hnd3
      linarith
    · rw [hcongr ks hk0]
      have := ih ks hnd
      have := sq_nonneg y0
      linarith

theorem queryVec_entry (tokens : List Str) (store : Store) :
    ∀ kv ∈ Chat.computeQueryTfIdf tokens store, ∀ x : ℝ, kv.2 = some x →
      ∃ a L : ℝ, 0 ≤ a ∧ Chat.idf store kv.1 = some L ∧ x = a * L := by
  intro kv hkv x hx
  unfold Chat.computeQueryTfIdf at hkv
  obtain ⟨kv0, _, rfl⟩ := List.mem_map.mp hkv
  simp only at hx ⊢
  cases hidf : Chat.idf store kv0.1 with
  | none =>
    rw [hidf] at hx
    cases hv : kv0.2 <;> cases hm : mathMaxWithOne (List.map Prod.snd (Upload.rawTf tokens)) <;>
      simp [hv, hm, Num.mul] at hx
  | some L =>
    rw [hidf] at hx
    cases hv : kv0.2 with
    | fnText k => simp [hv, Num.mul] at hx
    | count n =>
      cases hm : mathMaxWithOne (List.map Prod.snd (Upload.rawTf tokens)) with
      | none => simp [hv, hm, Num.mul] at hx
      | some m =>
        simp only [hv, hm, Num.mul, Option.some.injEq] at hx
        exact ⟨(n : ℝ) / (m : ℝ), L, by positivity, rfl, hx.symm⟩

theorem nodup_keys_queryVec (tokens : List Str) (store : Store) :
    ((Chat.computeQueryTfIdf tokens store).map Prod.fst).Nodup := by
  have h : (Chat.computeQueryTfIdf tokens store).map Prod.fst
      = (Upload.rawTf tokens).map Prod.fst := by
    unfold Chat.computeQueryTfIdf
    rw [List.map_map]
    rfl
  rw [h]
  exact nodup_keys_foldl_bump tokens [] List.nodup_nil

theorem map_fst_finite (l : List (Str × ℝ)) : (Chat.finite l).map Prod.fst = l.map Prod.fst := by
  unfold Chat.finite
  rw [List.map_map]
  rfl

/-- The recorded score of a chunk with non-negative term frequencies lies in
`[0, 1)`. -/
theorem scoreChunk_bounds (tokens : List Str) (store : Store) (chunk : ChunkRecord)
    (htf : ∀ kv ∈ chunk.tf, 0 ≤ Chat.tfNumber kv.2) :
    0 ≤ (Chat.scoreChunk (Chat.computeQueryTfIdf tokens store) store chunk).score ∧
      (Chat.scoreChunk (Chat.computeQueryTfIdf tokens store) store chunk).score < 1 := by
  unfold Chat.scoreChunk
  simp only
  cases hnq : Chat.norm (Chat.computeQueryTfIdf tokens store) with
  | none =>
    cases Chat.dotProduct (Chat.computeQueryTfIdf tokens store)
      (Chat.computeChunkTfIdfVec chunk.tf store) <;> simp [Num.mul, Num.div]
  | some nq =>
    cases hnc : Chat.norm (Chat.computeChunkTfIdfVec chunk.tf store) with
    | none =>
      cases Chat.dotProduct (Chat.computeQueryTfIdf tokens store)
        (Chat.computeChunkTfIdfVec chunk.tf store) <;> simp [Num.mul, Num.div]
    | some nc =>
      cases hdot : Chat.dotProduct (Chat.computeQueryTfIdf tokens store)
          (Chat.computeChunkTfIdfVec chunk.tf store) with
      | none => simp [Num.mul, Num.div]
      | some D =>
        obtain ⟨lq, hq, hnqv⟩ := norm_eq_some _ nq hnq
        obtain ⟨lc, hc, hncv⟩ := norm_eq_some _ nc hnc
        have hD : D = 0 + (lq.map fun kv => kv.2 * (getOwn lc kv.1).getD 0).sum := by
          apply dotProductFrom_finite lc lq 0 D
          rw [← hq, ← hc]
          exact hdot
        rw [zero_add] at hD
        -- every product is `qtf * ctf * idf ^ 2`
        have hterm : ∀ kv ∈ lq, 0 ≤ kv.2 * (getOwn lc kv.1).getD 0 := by
          intro kv hkv
          have hmem : (kv.1, (some kv.2 : Num)) ∈ Chat.computeQueryTfIdf tokens store := by
            rw [hq]
            exact List.mem_map.mpr ⟨kv, hkv, rfl⟩
          obtain ⟨a, L, ha, hidf, hx⟩ := queryVec_entry tokens store _ hmem kv.2 rfl
          simp only at hidf
          cases hget : getOwn lc kv.1 with
          | none => simp
          | some y =>
            have h1 : getOwn (Chat.computeChunkTfIdfVec chunk.tf store) kv.1 = some (some y) := by
              rw [hc, getOwn_finite, hget]; rfl
            rw [getOwn_chunkVec] at h1
            cases hv : getOwn chunk.tf kv.1 with
            | none => rw [hv] at h1; cases h1
            | some v =>
              rw [hv, hidf] at h1
              simp only [Num.mul, Option.some.injEq] at h1
              have ht : 0 ≤ Chat.tfNumber v := htf (kv.1, v) (getOwn_mem chunk.tf kv.1 v hv)
              simp only [Option.getD_some]
              rw [hx, ← h1]
              have : a * L * (Chat.tfNumber v * L) = a * Chat.tfNumber v * (L * L) := by ring
              rw [this]
              exact mul_nonneg (mul_nonneg ha ht) (mul_self_nonneg L)
        have hD0 : 0 ≤ D := by
          rw [hD]
          apply List.sum_nonneg
          intro z hz
          obtain ⟨kv, hkv, rfl⟩ := List.mem_map.mp hz
          exact hterm kv hkv
        -- Cauchy-Schwarz
        have hnd : (lq.map Prod.fst).Nodup := by
          rw [← map_fst_finite, ← hq]
          exact nodup_keys_queryVec tokens store
        have hcs := list_cauchy_schwarz lq (fun kv => kv.2) (fun kv => (getOwn lc kv.1).getD 0)
        have hle := sum_sq_getD_le lc (lq.map Prod.fst) hnd
        rw [List.map_map] at hle
        have hSq : (lq.map fun kv => kv.2 * kv.2).sum = (lq.map fun kv => kv.2 ^ 2).sum := by
          congr 1
          apply List.map_congr_left
          intro kv _
          ring
        have hSc : (lc.map fun kv => kv.2 * kv.2).sum = (lc.map fun kv => kv.2 ^ 2).sum := by
          congr 1
          apply List.map_congr_left
          intro kv _
          ring
        have hSq0 : 0 ≤ (lq.map fun kv => kv.2 ^ 2).sum := by
          apply List.sum_nonneg
          intro z hz
          obtain ⟨kv, _, rfl⟩ := List.mem_map.mp hz
          exact sq_nonneg _
        have hbound : D ^ 2 ≤ (lq.map fun kv => kv.2 ^ 2).sum * (lc.map fun kv => kv.2 ^ 2).sum := by
          rw [hD]
          exact le_trans hcs (mul_le_mul_of_nonneg_left hle hSq0)
        have hDle : D ≤ Real.sqrt ((lq.map fun kv => kv.2 ^ 2).sum)
            * Real.sqrt ((lc.map fun kv => kv.2 ^ 2).sum) := by
          rw [← Real.sqrt_mul hSq0]
          exact le_trans (le_abs_self D) (Real.abs_le_sqrt hbound)
        have heps : (0 : ℝ) < 1e-10 := by norm_num
        have h1 := Real.sqrt_nonneg ((lq.map fun kv => kv.2 ^ 2).sum)
        have h2 := Real.sqrt_nonneg ((lc.map fun kv => kv.2 ^ 2).sum)
        rw [hSq] at hnqv
        rw [hSc] at hncv
        have hnqpos : 0 < nq := by rw [hnqv]; linarith
        have hncpos : 0 < nc := by rw [hncv]; linarith
        have hlt : D < nq * nc := by
          rw [hnqv, hncv]
          nlinarith
        simp only [Num.mul, Num.div]
        exact ⟨div_nonneg hD0 (le_of_lt (mul_pos hnqpos hncpos)),
          (div_lt_one (mul_pos hnqpos hncpos)).mpr hlt⟩

/-! ## The handlers on the state of the file -/

theorem indexChunkLoaded_ofStore (lower : Str → Str) (docId : Str) (s : Store) (chunkId : Str)
    (chunkText : Str) :
    Upload.indexChunkLoaded lower docId (Loaded.ofStore s) chunkId chunkText
      = some (Loaded.ofStore (Upload.indexChunk lower docId s chunkId chunkText)) := by
  unfold Upload.indexChunkLoaded Upload.indexChunk Loaded.ofStore
  by_cases h : Upload.seenTerms (tokenize lower chunkText) = []
  · simp [h]
  · simp [h]

theorem indexChunksLoaded_ofStore (lower : Str → Str) (docId : Str) (uuid : Nat → Str)
    (chunks : List Str) :
    ∀ (i : Nat) (s : Store),
      Upload.indexChunksLoaded lower docId uuid i chunks (Loaded.ofStore s)
        = some (Loaded.ofStore (Upload.indexChunks lower docId uuid i chunks s)) := by
  induction chunks with
  | nil => intro i s; rfl
  | cons c rest ih =>
    intro i s
    rw [Upload.indexChunksLoaded, indexChunkLoaded_ofStore]
    exact ih (i + 1) _

/-- On a file whose loaded value is the store `s`, and when `saveStore` writes
the file, the upload handler does what it does on `s`; what the file then loads
to is the store it leaves. -/
theorem handlerOn_of_loadStore (lower : Str → Str) (uuid : Nat → Str) (name now : Str)
    (record : Record) (s : Store) (text : Str) (h : loadStore record = Loaded.ofStore s) :
    (Upload.handlerOn lower uuid name now .written record text).map
        (fun x => (x.1, loadStore x.2))
      = (Upload.handler lower uuid name now s text).map
          (fun rs => (Upload.Reply.sent rs.1, Loaded.ofStore rs.2)) := by
  unfold Upload.handlerOn Upload.handler
  by_cases hg : text = [] ∨ (trim text).length = 0
  · simp only [if_pos hg, Option.map_some', h]
  · simp only [if_neg hg]
    cases hch : chunkText text CHUNK_MAX_CHARS with
    | none => rfl
    | some chunks =>
      simp only [h, indexChunksLoaded_ofStore, Option.map_some']
      rfl

/-- On a file whose loaded value is a store, when `fs.writeFileSync` throws, the
upload of a text that is not blank is answered by the `catch` block, and the
file is in the state the failed call leaves. -/
theorem handlerOn_save_failed (lower : Str → Str) (uuid : Nat → Str) (name now : Str)
    (record left : Record) (s : Store) (text : Str) (h : loadStore record = Loaded.ofStore s)
    (hg : ¬ (text = [] ∨ (trim text).length = 0)) :
    Upload.handlerOn lower uuid name now (.failed left) record text
      = some (.saveFailed, left) := by
  obtain ⟨chunks, hch⟩ := chunkText_default_returns text
  unfold Upload.handlerOn
  simp only [if_neg hg, hch, h, indexChunksLoaded_ofStore]
  rfl

/-- On a file whose loaded value is the store `s`, the chat handler does what
it does on `s`. -/
theorem chat_handlerOn_of_loadStore (lower : Str → Str) (record : Record) (s : Store)
    (message : Option Str) (topK : Option Nat) (docs : Option (List Str))
    (h : loadStore record = Loaded.ofStore s) :
    Chat.handlerOn lower record message topK docs
      = .sent (Chat.handler lower s message topK docs) := by
  unfold Chat.handlerOn Chat.handler
  rw [h]
  simp only [Loaded.ofStore]
  by_cases hlen : s.chunks.length = 0
  · simp only [if_pos hlen]
  · simp only [if_neg hlen]
    cases message with
    | none => rfl
    | some m =>
      simp only
      by_cases hm : m = []
      · simp only [if_pos hm]
      · simp only [if_neg hm]
        by_cases ht : (tokenize lower m).length = 0
        · simp only [if_pos ht]
        · simp only [if_neg ht, Option.getD_some]

theorem tfNumber_oneChunkRecord : ∀ kv ∈ oneChunkRecord.tf, 0 ≤ Chat.tfNumber kv.2 := by
  intro kv hkv
  obtain ⟨_, q, hq, hv⟩ :=
    tf_entries (tokenize asciiLower (lit "zephyrquartz alpha")) (by decide) kv hkv
  rw [hv]
  show (0 : ℝ) ≤ (q : ℝ)
  exact le_of_lt (by exact_mod_cast hq)

/-- When the file is absent, unreadable or not valid JSON, `loadStore` yields
the empty store; the chat handler does what it does on the empty store, and so
does the upload handler when `saveStore` writes the file. -/
theorem loadStore_fallback (lower : Str → Str) (record : Record)
    (h : record = .unreadable ∨ record = .notJson) :
    loadStore record = Loaded.ofStore emptyStore ∧
    (∀ (uuid : Nat → Str) (name now text : Str),
      (Upload.handlerOn lower uuid name now .written record text).map
          (fun x => (x.1, loadStore x.2))
        = (Upload.handler lower uuid name now emptyStore text).map
            (fun rs => (Upload.Reply.sent rs.1, Loaded.ofStore rs.2))) ∧
    ∀ (message : Option Str) (topK : Option Nat) (docs : Option (List Str)),
      Chat.handlerOn lower record message topK docs
        = .sent (Chat.handler lower emptyStore message topK docs) := by
  have hload : loadStore record = Loaded.ofStore emptyStore := by
    rcases h with h | h <;> rw [h] <;> rfl
  exact ⟨hload,
    fun uuid name now text => handlerOn_of_loadStore lower uuid name now record emptyStore text hload,
    fun message topK docs => chat_handlerOn_of_loadStore lower record emptyStore message topK docs
      hload⟩

/-- The chunks that are scored: with a non-empty list as document filter
those whose `docId` is in the list, without a filter and with the empty list
all of them, in the order of the store. -/
theorem scoredOf_eq (lower : Str → Str) (store : Store) (message : Str) :
    (∀ ds : List Str, ds ≠ [] →
      Chat.scoredOf lower store message (some ds)
        = (store.chunks.filter fun d => decide (d.docId ∈ ds)).map
            (Chat.scoreChunk (Chat.computeQueryTfIdf (tokenize lower message) store) store)) ∧
    Chat.scoredOf lower store message none
      = store.chunks.map
          (Chat.scoreChunk (Chat.computeQueryTfIdf (tokenize lower message) store) store) ∧
    Chat.scoredOf lower store message (some [])
      = store.chunks.map
          (Chat.scoreChunk (Chat.computeQueryTfIdf (tokenize lower message) store) store) := by
  refine ⟨?_, ?_, ?_⟩
  · intro ds hds
    unfold Chat.scoredOf
    congr 1
    apply List.filter_congr
    intro d _
    have hpos : ds.length > 0 := List.length_pos.mpr hds
    simp [Chat.skipped, hpos]
  · unfold Chat.scoredOf
    congr 1
    simp [Chat.skipped]
  · unfold Chat.scoredOf
    congr 1
    simp [Chat.skipped]

theorem threeChunkStore_docIds :
    threeChunkStore.chunks.map (fun d => (d.docId, d.text))
      = [([0], lit "zephyrquartz alpha"), ([2], lit "beta gamma"), ([4], lit "delta epsilon")] := by
  decide


/-! ## The claims -/

/-- C1, at an input where it fails: with `maxChars = 3` the text `"a\nb"` has
the paragraphs `a` and `b`; the test `(buf + " " + p).length > maxChars` counts
one separator unit, the buffer is then joined with the two units `"\n\n"`, and
the one chunk returned has 4 units. -/
theorem chunkText_exceeds_maxChars :
    chunkText (lit "a\nb") 3 = some [lit "a\n\nb"] ∧ (lit "a\n\nb").length = 4 := by
  decide

/-- C2, as amended: in a store built by ingestions that does not hold exactly
two chunks, a term `t` that `tokenize` keeps as a single token and that is a
token of exactly one stored chunk `c`, itself without the token `constructor`,
is answered, without document filter and with `topK ≥ 1`, by the list of `c`
alone with a positive score. -/
theorem query_unique_term (lower : Str → Str) (store : Store) (hreach : Reachable lower store)
    (t : Str) (htok : tokenize lower t = [t]) (c : ChunkRecord) (hc : c ∈ store.chunks)
    (hct : t ∈ tokenize lower c.text)
    (huniq : store.chunks.countP (fun d => decide (t ∈ tokenize lower d.text)) = 1)
    (hN : store.chunks.length ≠ 2)
    (hctor : lit "constructor" ∉ tokenize lower c.text)
    (topK : Option Nat) (hk : 1 ≤ topK.getD 3) :
    ∃ score : ℝ, 0 < score ∧
      Chat.handler lower store (some t) topK none
        = .sources [{ score := score, text := c.text, docId := c.docId }] := by
  have wf := wellFormed_of_reachable lower store hreach
  have htne : t ≠ lit "constructor" := fun e => hctor (e ▸ hct)
  have hterm : IsTerm t := tokenize_isTerm lower t t (by rw [htok]; exact List.mem_singleton_self t)
  have htnil : t ≠ [] := by
    intro e
    have := hterm.1
    rw [e] at this
    simp at this
  have hne : store.chunks ≠ [] := List.ne_nil_of_mem hc
  have hlen : ¬ store.chunks.length = 0 := fun e => hne (List.length_eq_zero.mp e)
  -- the query vector
  have hfreq : tfFreq store.chunks t = 1 := by rw [tfFreq_eq_countP lower store wf, huniq]
  have hidf := idf_some_of_present lower store wf c hc t hct htne
  rw [hfreq, chunkTotal_of_wellFormed lower store wf hne] at hidf
  have hL := log_half_ne_zero store.chunks.length (List.length_pos.mpr hne) hN
  -- the chunks around `c`
  obtain ⟨A, B, hsplit, hA, hB⟩ := split_of_countP_one
    (fun d => decide (t ∈ tokenize lower d.text)) store.chunks c hc (by simpa using hct) huniq
  have habsent : ∀ d ∈ store.chunks, decide (t ∈ tokenize lower d.text) = false →
      (Chat.scoreChunk [(t, Num.mul (some 1) (Chat.idf store t))] store d).score = 0 := by
    intro d hd hdt
    apply score_eq_zero_of_absent store t _ d htne
    have h1 := isSome_getOwn_tf (tokenize lower d.text) t
    rw [← wf.terms d hd] at h1
    cases hget : getOwn d.tf t with
    | none => rfl
    | some v =>
      rw [hget] at h1
      have := h1.mp rfl
      simp [this] at hdt
  -- the score of `c`
  have hentries := tf_entries (tokenize lower c.text) hctor
  rw [← wf.terms c hc] at hentries
  have hpos : 0 < (Chat.scoreChunk [(t, Num.mul (some 1) (Chat.idf store t))] store c).score := by
    have h1 := isSome_getOwn_tf (tokenize lower c.text) t
    rw [← wf.terms c hc] at h1
    cases hget : getOwn c.tf t with
    | none =>
      rw [hget] at h1
      have := h1.mpr hct
      simp at this
    | some v =>
      obtain ⟨_, q, hq, hv⟩ := hentries (t, v) (getOwn_mem c.tf t v hget)
      simp only at hv
      subst hv
      apply score_pos_of_present store t _ hL c hidf q hq hget
      intro kv hkv
      obtain ⟨hk1, _⟩ := hentries kv hkv
      exact ⟨_, idf_some_of_present lower store wf c hc kv.1 hk1 (fun e => hctor (e ▸ hk1))⟩
  -- the handler
  refine ⟨(Chat.scoreChunk [(t, Num.mul (some 1) (Chat.idf store t))] store c).score, hpos, ?_⟩
  have hfilter : (store.chunks.filter fun chunk => !(Chat.skipped none chunk)) = store.chunks := by
    simp [Chat.skipped]
  have hsorted :
      ((store.chunks.map (Chat.scoreChunk [(t, Num.mul (some 1) (Chat.idf store t))] store)).insertionSort
        fun a b => a.score ≥ b.score)
      = Chat.scoreChunk [(t, Num.mul (some 1) (Chat.idf store t))] store c ::
          (A.map (Chat.scoreChunk [(t, Num.mul (some 1) (Chat.idf store t))] store) ++
            B.map (Chat.scoreChunk [(t, Num.mul (some 1) (Chat.idf store t))] store)) := by
    rw [hsplit, List.map_append, List.map_cons]
    apply insertionSort_single_pos _ _ _ _ _ hpos
    · intro y hy
      obtain ⟨d, hd, rfl⟩ := List.mem_map.mp hy
      exact habsent d (by rw [hsplit]; exact List.mem_append_left _ hd) (hA d hd)
    · intro y hy
      obtain ⟨d, hd, rfl⟩ := List.mem_map.mp hy
      exact habsent d (by rw [hsplit]; exact List.mem_append_right _ (List.mem_cons_of_mem _ hd))
        (hB d hd)
  have htop := top_single_pos
    (A.map (Chat.scoreChunk [(t, Num.mul (some 1) (Chat.idf store t))] store) ++
      B.map (Chat.scoreChunk [(t, Num.mul (some 1) (Chat.idf store t))] store))
    (Chat.scoreChunk [(t, Num.mul (some 1) (Chat.idf store t))] store c) (topK.getD 3) hk
    (by
      intro y hy
      rcases List.mem_append.mp hy with hy | hy
      · obtain ⟨d, hd, rfl⟩ := List.mem_map.mp hy
        exact habsent d (by rw [hsplit]; exact List.mem_append_left _ hd) (hA d hd)
      · obtain ⟨d, hd, rfl⟩ := List.mem_map.mp hy
        exact habsent d (by rw [hsplit]; exact List.mem_append_right _ (List.mem_cons_of_mem _ hd))
          (hB d hd))
    hpos
  obtain ⟨j, hj⟩ : ∃ j, topK.getD 3 = j + 1 := ⟨topK.getD 3 - 1, by omega⟩
  unfold Chat.handler
  rw [if_neg hlen]
  simp only [if_neg htnil, htok, List.length_singleton, one_ne_zero, if_false,
    computeQueryTfIdf_singleton store t htne, hfilter, hsorted, htop]
  rw [hj, List.take_succ_cons, List.take_nil]
  rfl

theorem query_unique_term_witness :
    Reachable asciiLower oneChunkStore ∧
      tokenize asciiLower (lit "zephyrquartz") = [lit "zephyrquartz"] ∧
      oneChunkRecord ∈ oneChunkStore.chunks ∧
      lit "zephyrquartz" ∈ tokenize asciiLower oneChunkRecord.text ∧
      oneChunkStore.chunks.countP
        (fun d => decide (lit "zephyrquartz" ∈ tokenize asciiLower d.text)) = 1 ∧
      oneChunkStore.chunks.length ≠ 2 ∧
      lit "constructor" ∉ tokenize asciiLower oneChunkRecord.text ∧
      1 ≤ (none : Option Nat).getD 3 ∧
      ∃ score : ℝ, 0 < score ∧
        Chat.handler asciiLower oneChunkStore (some (lit "zephyrquartz")) none none
          = .sources [{ score := score, text := oneChunkRecord.text,
                        docId := oneChunkRecord.docId }] :=
  have hreach : Reachable asciiLower oneChunkStore :=
    reachable_stored asciiLower _ _ _ emptyStore _ Reachable.empty
  have hchunks : oneChunkStore.chunks = [oneChunkRecord] := rfl
  have hmem : oneChunkRecord ∈ oneChunkStore.chunks := by
    rw [hchunks]; exact List.mem_singleton_self _
  have hcount : oneChunkStore.chunks.countP
      (fun d => decide (lit "zephyrquartz" ∈ tokenize asciiLower d.text)) = 1 := by
    rw [hchunks]; decide
  have hlen : oneChunkStore.chunks.length ≠ 2 := by rw [hchunks]; decide
  ⟨hreach, by decide, hmem, by decide, hcount, hlen, by decide, by decide,
    query_unique_term asciiLower oneChunkStore hreach (lit "zephyrquartz") (by decide)
      oneChunkRecord hmem (by decide) hcount hlen (by decide) none (by decide)⟩

/-- C2, at an input where it fails: in the store of two one-chunk documents,
`zephyrquartz` and `alpha beta`, the term `zephyrquartz` is a token of exactly
one chunk, its `idf` is `ln(2 / (1 + 1)) = 0`, every score is 0, and the query
`zephyrquartz` is answered with the no-relevant-content sentinel instead of a
ranked list. -/
theorem query_unique_term_two_chunks :
    Reachable asciiLower twoChunkStore ∧
      tokenize asciiLower (lit "zephyrquartz") = [lit "zephyrquartz"] ∧
      twoChunkStore.chunks.map (fun d => tokenize asciiLower d.text)
        = [[lit "zephyrquartz"], [lit "alpha", lit "beta"]] ∧
      Chat.handler asciiLower twoChunkStore (some (lit "zephyrquartz")) (some 3) none
        = .answer "No relevant content found in uploaded materials." := by
  have hreach : Reachable asciiLower twoChunkStore :=
    reachable_stored asciiLower _ _ _ _ _ (reachable_stored asciiLower _ _ _ emptyStore _
      Reachable.empty)
  have htok : tokenize asciiLower (lit "zephyrquartz") = [lit "zephyrquartz"] := by decide
  have hne : lit "zephyrquartz" ≠ lit "constructor" := by decide
  have hdf : getOwn twoChunkStore.df (lit "zephyrquartz") = some (.count 1) := by decide
  have hN : Chat.chunkTotal twoChunkStore = 2 := by decide
  have hidf : Chat.idf twoChunkStore (lit "zephyrquartz") = some 0 := by
    rw [idf_of_count _ _ 1 hdf, hN]
    norm_num
  refine ⟨hreach, htok, by decide, ?_⟩
  apply handler_no_relevant
  · decide
  · decide
  · rw [htok]; decide
  · intro d _
    rw [htok, computeQueryTfIdf_singleton _ _ hne]
    exact le_of_eq (score_eq_zero_of_idf_zero _ _ _ d hne hidf)

/-- C3: every token returned by `tokenize` has more than two units, all of
them in `a-z` or `0-9`, and is not a stop word, whatever `toLowerCase` does. -/
theorem tokenize_tokens_valid (lower : Str → Str) (text : Str) :
    ∀ t ∈ tokenize lower text,
      2 < t.length ∧ (∀ c ∈ t, isLowerAlnum c = true) ∧ t ∉ stop :=
  fun t ht => tokenize_isTerm lower text t ht

theorem tokenize_tokens_valid_witness :
    lit "world" ∈ tokenize asciiLower (lit "Hello, the World!") ∧
      2 < (lit "world").length ∧ (∀ c ∈ lit "world", isLowerAlnum c = true) ∧
      lit "world" ∉ stop :=
  ⟨by decide, tokenize_tokens_valid asciiLower (lit "Hello, the World!") (lit "world")
    (by decide)⟩

/-- C4: tokenizing the tokens of `s` joined by single spaces gives the tokens
of `s` back, for a `toLowerCase` that leaves text over `a-z`, `0-9` and the
space unchanged. -/
theorem tokenize_idempotent (lower : Str → Str)
    (hlower : ∀ s : Str, (∀ c ∈ s, isLowerAlnum c = true ∨ c = 32) → lower s = s) (s : Str) :
    tokenize lower (joinWith (lit " ") (tokenize lower s)) = tokenize lower s :=
  tokenize_joinWith lower hlower _ (tokenize_isTerm lower s)

theorem tokenize_idempotent_witness :
    (∀ s : Str, (∀ c ∈ s, isLowerAlnum c = true ∨ c = 32) → asciiLower s = s) ∧
      tokenize asciiLower (joinWith (lit " ") (tokenize asciiLower (lit "Hello, the World!")))
        = tokenize asciiLower (lit "Hello, the World!") :=
  ⟨asciiLower_fixes, tokenize_idempotent asciiLower asciiLower_fixes _⟩

/-- C5: for `maxChars ≥ 1`, `chunkText` returns, and its chunks concatenated
in order, with all whitespace deleted, are the text with all whitespace
deleted. -/
theorem chunkText_preserves_content (text : Str) (maxChars : Nat) (hm : 1 ≤ maxChars) :
    ∃ chunks, chunkText text maxChars = some chunks ∧
      squeeze chunks.flatten = squeeze text := by
  obtain ⟨chunks, h1, h2, _⟩ := chunkText_spec text maxChars hm
  exact ⟨chunks, h1, h2⟩

theorem chunkText_preserves_content_witness :
    1 ≤ 7 ∧ ∃ chunks, chunkText (lit " hello world \n\n second one\n x") 7 = some chunks ∧
      squeeze chunks.flatten = squeeze (lit " hello world \n\n second one\n x") :=
  ⟨by decide, chunkText_preserves_content _ 7 (by decide)⟩

/-- C6: `chunkText` of the empty string, and of a text made only of whitespace
and line breaks, returns no chunk, for every `maxChars`. -/
theorem chunkText_blank (text : Str) (maxChars : Nat) (h : ∀ c ∈ text, isSpace c = true) :
    chunkText text maxChars = some [] := by
  simp [chunkText, paragraphs_of_spaces text h, chunkLoop]

theorem chunkText_blank_witness :
    (∀ c ∈ lit " \n\t \r\n", isSpace c = true) ∧ chunkText (lit " \n\t \r\n") 1200 = some [] :=
  ⟨by decide, chunkText_blank _ 1200 (by decide)⟩

/-- C7: on a store whose counter is the number of its chunk records, the
ingestion of a text that is not blank succeeds, the counter is again the number
of chunk records, and both have grown by the number of chunks `chunkText`
returns for the text, which is the `chunkCount` of the new document. -/
theorem ingest_totalChunks (lower : Str → Str) (uuid : Nat → Str) (name now : Str)
    (store : Store) (text : Str) (hinv : store.totalChunks = store.chunks.length)
    (htext : ∃ c ∈ text, isSpace c = false) :
    ∃ chunks store', chunkText text CHUNK_MAX_CHARS = some chunks ∧
      Upload.handler lower uuid name now store text
        = some (.ok (uuid 0) name chunks.length, store') ∧
      store'.totalChunks = store'.chunks.length ∧
      store'.totalChunks = store.totalChunks + chunks.length ∧
      store'.chunks.length = store.chunks.length + chunks.length ∧
      getOwn store'.docs (uuid 0)
        = some { id := uuid 0, name := name, chunkCount := chunks.length, uploadedAt := now } := by
  obtain ⟨chunks, hch⟩ := chunkText_default_returns text
  obtain ⟨h1, h2⟩ := indexChunks_counts lower (uuid 0) uuid chunks 0 store
  refine ⟨chunks,
    { Upload.indexChunks lower (uuid 0) uuid 0 chunks store with
      docs := setProp (Upload.indexChunks lower (uuid 0) uuid 0 chunks store).docs (uuid 0)
        { id := uuid 0, name := name, chunkCount := chunks.length, uploadedAt := now } },
    hch, ?_, ?_, h2, h1, getOwn_setProp_same _ _ _⟩
  · simp only [Upload.handler, if_neg (not_blank_guard text htext), hch]
  · show (Upload.indexChunks lower (uuid 0) uuid 0 chunks store).totalChunks
      = (Upload.indexChunks lower (uuid 0) uuid 0 chunks store).chunks.length
    rw [h1, h2, hinv]

theorem ingest_totalChunks_witness :
    emptyStore.totalChunks = emptyStore.chunks.length ∧
      (∃ c ∈ lit "Alpha beta\n\ngamma", isSpace c = false) ∧
      ∃ chunks store', chunkText (lit "Alpha beta\n\ngamma") CHUNK_MAX_CHARS = some chunks ∧
        Upload.handler asciiLower (fun n => [n]) (lit "a.txt") (lit "now") emptyStore
            (lit "Alpha beta\n\ngamma")
          = some (.ok [0] (lit "a.txt") chunks.length, store') ∧
        store'.totalChunks = store'.chunks.length ∧
        store'.totalChunks = emptyStore.totalChunks + chunks.length ∧
        store'.chunks.length = emptyStore.chunks.length + chunks.length ∧
        getOwn store'.docs [0]
          = some { id := [0], name := lit "a.txt", chunkCount := chunks.length,
                   uploadedAt := lit "now" } :=
  ⟨rfl, ⟨65, by decide, by decide⟩,
    ingest_totalChunks asciiLower (fun n => [n]) (lit "a.txt") (lit "now") emptyStore
      (lit "Alpha beta\n\ngamma") rfl ⟨65, by decide, by decide⟩⟩

/-- C8, at an input where it fails: after the upload of `alpha constructor alpha`
into the empty store one chunk record has the key `constructor` in its `tf`,
and `df["constructor"]` is not the count 1 but the string made of the text of
the function `Object` and one `1`: `store.df["constructor"]` reads the
inherited `Object.prototype.constructor`, which is truthy, and `+ 1`
concatenates. -/
theorem df_constructor_not_count :
    Reachable asciiLower constructorStore ∧
      tfFreq constructorStore.chunks (lit "constructor") = 1 ∧
      getOwn constructorStore.df (lit "constructor") = some (.fnText 1) :=
  ⟨reachable_stored asciiLower _ _ _ emptyStore _ Reachable.empty, by decide, by decide⟩

/-- C9, at an input where it fails: the chunk `alpha constructor alpha` has
the tokens `alpha`, `constructor`, `alpha`; `tf["constructor"]` is a string,
`Math.max` of the values is `NaN`, every quotient is `NaN`, and the stored `tf`
holds `null` for both terms instead of `2/2` and `1/2`. -/
theorem tf_null_with_constructor :
    tokenize asciiLower (lit "alpha constructor alpha")
        = [lit "alpha", lit "constructor", lit "alpha"] ∧
      constructorStore.chunks.map (fun c => c.tf)
        = [[(lit "alpha", .null), (lit "constructor", .null)]] := by
  decide

/-- C10, at an input where it fails: the text `alpha constructor alpha` is
uploaded twice into the empty store; `df["alpha"]` goes from 1 to 2, but
`df["constructor"]` is a string after the first upload and that string with one
more `1` after the second, not a number that doubles. -/
theorem df_constructor_not_doubled :
    constructorStore.df = [(lit "alpha", .count 1), (lit "constructor", .fnText 1)] ∧
      constructorStoreTwice.df = [(lit "alpha", .count 2), (lit "constructor", .fnText 2)] := by
  decide


/-- C11: for every store and every extracted text that is empty or made only
of whitespace, the upload handler answers 400 with `No text found in file` and
the store is the loaded one: no chunk, document or document frequency is added;
whatever the state of the file is, it is left as it was, `saveStore` not being
reached. -/
theorem ingest_blank_rejected (lower : Str → Str) (uuid : Nat → Str) (name now : Str)
    (store : Store) (text : Str) (h : ∀ c ∈ text, isSpace c = true) :
    Upload.handler lower uuid name now store text
        = some (.error 400 "No text found in file", store) ∧
      ∀ (write : Upload.WriteOutcome) (record : Record),
        Upload.handlerOn lower uuid name now write record text
          = some (.sent (.error 400 "No text found in file"), record) := by
  have hg : text = [] ∨ (trim text).length = 0 :=
    Or.inr (by rw [trim_eq_nil_of_spaces text h]; rfl)
  refine ⟨?_, fun write record => ?_⟩
  · simp only [Upload.handler, if_pos hg]
  · simp only [Upload.handlerOn, if_pos hg]

theorem ingest_blank_rejected_witness :
    (∀ c ∈ lit " \n\t ", isSpace c = true) ∧
      Upload.handler asciiLower (fun n => [n]) (lit "a.txt") (lit "t0") constructorStore
          (lit " \n\t ")
        = some (.error 400 "No text found in file", constructorStore) ∧
      ∀ (write : Upload.WriteOutcome) (record : Record),
        Upload.handlerOn asciiLower (fun n => [n]) (lit "a.txt") (lit "t0") write record
            (lit " \n\t ")
          = some (.sent (.error 400 "No text found in file"), record) :=
  ⟨by decide, ingest_blank_rejected asciiLower _ _ _ constructorStore _ (by decide)⟩

/-- C12: on a store without chunks the chat handler answers 400 with
`No documents indexed yet`, whatever the message (present, empty or missing),
`topK` and the document filter are. -/
theorem query_empty_index (lower : Str → Str) (store : Store) (message : Option Str)
    (topK : Option Nat) (docs : Option (List Str)) (h : store.chunks = []) :
    Chat.handler lower store message topK docs
      = .error 400 "No documents indexed yet. Upload a PDF first." := by
  have hlen : store.chunks.length = 0 := by rw [h]; rfl
  simp only [Chat.handler, if_pos hlen]

theorem query_empty_index_witness :
    emptyStore.chunks = [] ∧
      Chat.handler asciiLower emptyStore (some (lit "hello")) none none
        = .error 400 "No documents indexed yet. Upload a PDF first." :=
  ⟨rfl, query_empty_index asciiLower emptyStore (some (lit "hello")) none none rfl⟩

/-- C13: on a store with at least one chunk, a non-empty message whose
tokenization is empty is answered with status 200 and
`Please ask using more keywords.`, whatever `topK` and the document filter are. -/
theorem query_no_keywords (lower : Str → Str) (store : Store) (message : Str)
    (topK : Option Nat) (docs : Option (List Str)) (hne : store.chunks ≠ [])
    (hmsg : message ≠ []) (htok : tokenize lower message = []) :
    Chat.handler lower store (some message) topK docs
      = .answer "Please ask using more keywords." := by
  have hlen : ¬ store.chunks.length = 0 := fun e => hne (List.length_eq_zero.mp e)
  have htl : (tokenize lower message).length = 0 := by rw [htok]; rfl
  unfold Chat.handler
  rw [if_neg hlen]
  simp only [if_neg hmsg, if_pos htl]

theorem query_no_keywords_witness :
    oneChunkStore.chunks ≠ [] ∧ lit "the and of" ≠ [] ∧
      tokenize asciiLower (lit "the and of") = [] ∧
      Chat.handler asciiLower oneChunkStore (some (lit "the and of")) none none
        = .answer "Please ask using more keywords." :=
  have hne : oneChunkStore.chunks ≠ [] := by
    have : oneChunkStore.chunks = [oneChunkRecord] := rfl
    rw [this]; exact List.cons_ne_nil _ _
  ⟨hne, by decide, by decide,
    query_no_keywords asciiLower oneChunkStore (lit "the and of") none none hne (by decide)
      (by decide)⟩

/-- C14: in a non-empty store built by ingestions, for a message whose
tokenization is not empty and none of whose tokens is a token of a stored
chunk, the score of every chunk is 0 and the handler answers with
`No relevant content found in uploaded materials.`, whatever `topK` and the
document filter are. -/
theorem query_absent_terms (lower : Str → Str) (store : Store) (message : Str)
    (topK : Option Nat) (docs : Option (List Str)) (hreach : Reachable lower store)
    (hne : store.chunks ≠ []) (hmsg : message ≠ []) (htok : tokenize lower message ≠ [])
    (habs : ∀ k ∈ tokenize lower message, ∀ d ∈ store.chunks, k ∉ tokenize lower d.text) :
    (∀ d ∈ store.chunks,
      (Chat.scoreChunk (Chat.computeQueryTfIdf (tokenize lower message) store) store d).score
        = 0) ∧
      Chat.handler lower store (some message) topK docs
        = .answer "No relevant content found in uploaded materials." := by
  have wf := wellFormed_of_reachable lower store hreach
  have hzero : ∀ d ∈ store.chunks,
      (Chat.scoreChunk (Chat.computeQueryTfIdf (tokenize lower message) store) store d).score
        = 0 := by
    intro d hd
    apply score_eq_zero_of_all_absent
    intro kv hkv
    have hk := keys_computeQueryTfIdf _ store kv hkv
    have h1 := isSome_getOwn_tf (tokenize lower d.text) kv.1
    rw [← wf.terms d hd] at h1
    cases hget : getOwn d.tf kv.1 with
    | none => rfl
    | some v =>
      rw [hget] at h1
      exact absurd (h1.mp rfl) (habs kv.1 hk d hd)
  exact ⟨hzero, handler_no_relevant lower store message topK docs hne hmsg htok
    (fun d hd => le_of_eq (hzero d hd))⟩

theorem query_absent_terms_witness :
    Reachable asciiLower oneChunkStore ∧ oneChunkStore.chunks ≠ [] ∧ lit "zzz" ≠ [] ∧
      tokenize asciiLower (lit "zzz") ≠ [] ∧
      (∀ k ∈ tokenize asciiLower (lit "zzz"), ∀ d ∈ oneChunkStore.chunks,
        k ∉ tokenize asciiLower d.text) ∧
      (∀ d ∈ oneChunkStore.chunks,
        (Chat.scoreChunk (Chat.computeQueryTfIdf (tokenize asciiLower (lit "zzz")) oneChunkStore)
          oneChunkStore d).score = 0) ∧
      Chat.handler asciiLower oneChunkStore (some (lit "zzz")) none none
        = .answer "No relevant content found in uploaded materials." :=
  have hreach : Reachable asciiLower oneChunkStore :=
    reachable_stored asciiLower _ _ _ emptyStore _ Reachable.empty
  have hne : oneChunkStore.chunks ≠ [] := by
    rw [oneChunkStore_chunks]; exact List.cons_ne_nil _ _
  have habs : ∀ k ∈ tokenize asciiLower (lit "zzz"), ∀ d ∈ oneChunkStore.chunks,
      k ∉ tokenize asciiLower d.text := by
    rw [oneChunkStore_chunks]; decide
  ⟨hreach, hne, by decide, by decide, habs,
    query_absent_terms asciiLower oneChunkStore (lit "zzz") none none hreach hne (by decide)
      (by decide) habs⟩

/-- C15: for a non-empty store and a message with tokens, with a non-empty
list `ds` as document filter the chunks that are scored are exactly those whose
`docId` is in `ds`, in the order of the store, so that the entries returned have
their `docId` in `ds` and the answer is
`No relevant content found in uploaded materials.` when no stored chunk has its
`docId` in `ds`; without a filter and with the empty list as filter all chunks
are scored, and the response with the empty list is the one without filter. -/
theorem query_doc_filter (lower : Str → Str) (store : Store) (message : Str)
    (topK : Option Nat) (ds : List Str) (hne : store.chunks ≠ []) (hmsg : message ≠ [])
    (htok : tokenize lower message ≠ []) (hds : ds ≠ []) :
    Chat.scoredOf lower store message (some ds)
      = (store.chunks.filter fun d => decide (d.docId ∈ ds)).map
          (Chat.scoreChunk (Chat.computeQueryTfIdf (tokenize lower message) store) store) ∧
    (∀ d ∈ store.chunks, d.docId ∈ ds →
      Chat.scoreChunk (Chat.computeQueryTfIdf (tokenize lower message) store) store d
        ∈ Chat.scoredOf lower store message (some ds)) ∧
    Chat.scoredOf lower store message none
      = store.chunks.map
          (Chat.scoreChunk (Chat.computeQueryTfIdf (tokenize lower message) store) store) ∧
    Chat.scoredOf lower store message (some [])
      = store.chunks.map
          (Chat.scoreChunk (Chat.computeQueryTfIdf (tokenize lower message) store) store) ∧
    (∀ e ∈ Chat.scoredOf lower store message (some ds), ∃ d ∈ store.chunks, d.docId ∈ ds ∧
      e = Chat.scoreChunk (Chat.computeQueryTfIdf (tokenize lower message) store) store d) ∧
    Chat.handler lower store (some message) topK (some ds)
      = (if (Chat.topOf lower store message topK (some ds)).length = 0 then
          .answer "No relevant content found in uploaded materials."
        else .sources (Chat.topOf lower store message topK (some ds))) ∧
    (∀ e ∈ Chat.topOf lower store message topK (some ds), e.docId ∈ ds) ∧
    ((∀ d ∈ store.chunks, d.docId ∉ ds) →
      Chat.handler lower store (some message) topK (some ds)
        = .answer "No relevant content found in uploaded materials.") ∧
    Chat.handler lower store (some message) topK (some [])
      = Chat.handler lower store (some message) topK none := by
  obtain ⟨hsome, hnone, hnil⟩ := scoredOf_eq lower store message
  have hscored : ∀ e ∈ Chat.scoredOf lower store message (some ds), ∃ d ∈ store.chunks,
      d.docId ∈ ds ∧
      e = Chat.scoreChunk (Chat.computeQueryTfIdf (tokenize lower message) store) store d := by
    intro e he
    obtain ⟨d, hd, hskip, rfl⟩ := mem_scoredOf lower store message (some ds) e he
    exact ⟨d, hd, skipped_eq_false ds hds d hskip, rfl⟩
  have htop := handler_eq_top lower store message topK (some ds) hne hmsg htok
  rw [take_topOf] at htop
  refine ⟨hsome ds hds, ?_, hnone, hnil, hscored, htop, ?_, ?_,
    handler_filter_nil lower store (some message) topK⟩
  · intro d hd hmem
    rw [hsome ds hds]
    exact List.mem_map.mpr ⟨d, List.mem_filter.mpr ⟨hd, by simpa using hmem⟩, rfl⟩
  · intro e he
    obtain ⟨d, _, hd, rfl⟩ := hscored e (mem_topOf lower store message topK (some ds) e he).1
    exact hd
  · intro hnone
    rw [htop, if_pos]
    rw [List.length_eq_zero, List.eq_nil_iff_forall_not_mem]
    intro e he
    obtain ⟨d, hd, hmem, _⟩ := hscored e (mem_topOf lower store message topK (some ds) e he).1
    exact hnone d hd hmem

theorem query_doc_filter_witness :
    threeChunkStore.chunks ≠ [] ∧ lit "zephyrquartz" ≠ [] ∧
      tokenize asciiLower (lit "zephyrquartz") ≠ [] ∧ [[0], [4]] ≠ ([] : List Str) ∧
      Chat.scoredOf asciiLower threeChunkStore (lit "zephyrquartz") (some [[0], [4]])
        = (threeChunkStore.chunks.filter fun d => decide (d.docId ∈ [[0], [4]])).map
            (Chat.scoreChunk
              (Chat.computeQueryTfIdf (tokenize asciiLower (lit "zephyrquartz")) threeChunkStore)
              threeChunkStore) ∧
      (∀ d ∈ threeChunkStore.chunks, d.docId ∈ [[0], [4]] →
        Chat.scoreChunk
            (Chat.computeQueryTfIdf (tokenize asciiLower (lit "zephyrquartz")) threeChunkStore)
            threeChunkStore d
          ∈ Chat.scoredOf asciiLower threeChunkStore (lit "zephyrquartz") (some [[0], [4]])) ∧
      Chat.scoredOf asciiLower threeChunkStore (lit "zephyrquartz") none
        = threeChunkStore.chunks.map
            (Chat.scoreChunk
              (Chat.computeQueryTfIdf (tokenize asciiLower (lit "zephyrquartz")) threeChunkStore)
              threeChunkStore) ∧
      Chat.scoredOf asciiLower threeChunkStore (lit "zephyrquartz") (some [])
        = threeChunkStore.chunks.map
            (Chat.scoreChunk
              (Chat.computeQueryTfIdf (tokenize asciiLower (lit "zephyrquartz")) threeChunkStore)
              threeChunkStore) ∧
      (∀ e ∈ Chat.scoredOf asciiLower threeChunkStore (lit "zephyrquartz") (some [[0], [4]]),
        ∃ d ∈ threeChunkStore.chunks, d.docId ∈ [[0], [4]] ∧
          e = Chat.scoreChunk
            (Chat.computeQueryTfIdf (tokenize asciiLower (lit "zephyrquartz")) threeChunkStore)
            threeChunkStore d) ∧
      Chat.handler asciiLower threeChunkStore (some (lit "zephyrquartz")) none
          (some [[0], [4]])
        = (if (Chat.topOf asciiLower threeChunkStore (lit "zephyrquartz") none
              (some [[0], [4]])).length = 0 then
            .answer "No relevant content found in uploaded materials."
          else .sources (Chat.topOf asciiLower threeChunkStore (lit "zephyrquartz") none
            (some [[0], [4]]))) ∧
      (∀ e ∈ Chat.topOf asciiLower threeChunkStore (lit "zephyrquartz") none
          (some [[0], [4]]), e.docId ∈ [[0], [4]]) ∧
      ((∀ d ∈ threeChunkStore.chunks, d.docId ∉ [[0], [4]]) →
        Chat.handler asciiLower threeChunkStore (some (lit "zephyrquartz")) none
            (some [[0], [4]])
          = .answer "No relevant content found in uploaded materials.") ∧
      Chat.handler asciiLower threeChunkStore (some (lit "zephyrquartz")) none (some [])
        = Chat.handler asciiLower threeChunkStore (some (lit "zephyrquartz")) none none :=
  have hne : threeChunkStore.chunks ≠ [] := by
    intro h
    have := congrArg (List.map fun d : ChunkRecord => (d.docId, d.text)) h
    rw [threeChunkStore_docIds] at this
    cases this
  ⟨hne, by decide, by decide, by decide,
    query_doc_filter asciiLower threeChunkStore (lit "zephyrquartz") none [[0], [4]] hne
      (by decide) (by decide) (by decide)⟩

/-- C16: for a non-empty store and a message with tokens, the list the handler
returns is `top`; it has at most `topK` entries (3 when `topK` is absent), every
entry has a positive score, the scores do not increase along the list, and the
entries of one score stand in the order of their chunks in the store. -/
theorem query_ranked (lower : Str → Str) (store : Store) (message : Str) (topK : Option Nat)
    (docs : Option (List Str)) (hne : store.chunks ≠ []) (hmsg : message ≠ [])
    (htok : tokenize lower message ≠ []) :
    Chat.handler lower store (some message) topK docs
      = (if (Chat.topOf lower store message topK docs).length = 0 then
          .answer "No relevant content found in uploaded materials."
        else .sources (Chat.topOf lower store message topK docs)) ∧
    (Chat.topOf lower store message topK docs).length ≤ topK.getD 3 ∧
    (∀ e ∈ Chat.topOf lower store message topK docs, 0 < e.score) ∧
    (Chat.topOf lower store message topK docs).Pairwise (fun a b => a.score ≥ b.score) ∧
    ∀ s : ℝ, ((Chat.topOf lower store message topK docs).filter
        fun e => decide (e.score = s)).Sublist
      ((Chat.scoredOf lower store message docs).filter fun e => decide (e.score = s)) := by
  have htop := handler_eq_top lower store message topK docs hne hmsg htok
  rw [take_topOf] at htop
  refine ⟨htop, topOf_length_le lower store message topK docs,
    fun e he => (mem_topOf lower store message topK docs e he).2, ?_, ?_⟩
  · exact (sorted_insertionSort_score _).sublist (topOf_sublist lower store message topK docs)
  · intro s
    have h := (topOf_sublist lower store message topK docs).filter
      (fun e => decide (e.score = s))
    rw [insertionSort_filter_eq] at h
    exact h

theorem query_ranked_witness :
    oneChunkStore.chunks ≠ [] ∧ lit "zephyrquartz" ≠ [] ∧
      tokenize asciiLower (lit "zephyrquartz") ≠ [] ∧
      Chat.handler asciiLower oneChunkStore (some (lit "zephyrquartz")) (some 2) none
        = (if (Chat.topOf asciiLower oneChunkStore (lit "zephyrquartz") (some 2) none).length
              = 0 then
            .answer "No relevant content found in uploaded materials."
          else .sources (Chat.topOf asciiLower oneChunkStore (lit "zephyrquartz") (some 2)
            none)) ∧
      (Chat.topOf asciiLower oneChunkStore (lit "zephyrquartz") (some 2) none).length
        ≤ (some 2 : Option Nat).getD 3 ∧
      (∀ e ∈ Chat.topOf asciiLower oneChunkStore (lit "zephyrquartz") (some 2) none,
        0 < e.score) ∧
      (Chat.topOf asciiLower oneChunkStore (lit "zephyrquartz") (some 2) none).Pairwise
        (fun a b => a.score ≥ b.score) ∧
      ∀ s : ℝ, ((Chat.topOf asciiLower oneChunkStore (lit "zephyrquartz") (some 2) none).filter
          fun e => decide (e.score = s)).Sublist
        ((Chat.scoredOf asciiLower oneChunkStore (lit "zephyrquartz") none).filter
          fun e => decide (e.score = s)) :=
  have hne : oneChunkStore.chunks ≠ [] := by
    rw [oneChunkStore_chunks]; exact List.cons_ne_nil _ _
  ⟨hne, by decide, by decide,
    query_ranked asciiLower oneChunkStore (lit "zephyrquartz") (some 2) none hne (by decide)
      (by decide)⟩

/-- C18: for `maxChars ≥ 1`, `chunkText` returns for every text, and the inner
loop, entered with a paragraph `p` and given more fuel than
`⌈p.length / maxChars⌉`, ends after `k ≤ ⌈p.length / maxChars⌉` iterations, each
of which pushes one chunk and shortens the buffer by `maxChars` units. -/
theorem chunkText_terminates (maxChars : Nat) (hm : 1 ≤ maxChars) :
    (∀ text : Str, ∃ chunks, chunkText text maxChars = some chunks) ∧
    ∀ (p : Str) (chunks : List Str) (fuel : Nat),
      (p.length + maxChars - 1) / maxChars < fuel →
      ∃ k buf' chunks', sliceLoop maxChars fuel p chunks = some (buf', chunks') ∧
        chunks'.length = chunks.length + k ∧ buf'.length + k * maxChars = p.length ∧
        k ≤ (p.length + maxChars - 1) / maxChars := by
  refine ⟨?_, ?_⟩
  · intro text
    obtain ⟨chunks, h, _⟩ := chunkText_spec text maxChars hm
    exact ⟨chunks, h⟩
  · intro p chunks fuel hfuel
    exact sliceLoop_iterations maxChars hm fuel p chunks hfuel

theorem chunkText_terminates_witness :
    1 ≤ 3 ∧ (∀ text : Str, ∃ chunks, chunkText text 3 = some chunks) ∧
      ∀ (p : Str) (chunks : List Str) (fuel : Nat),
        (p.length + 3 - 1) / 3 < fuel →
        ∃ k buf' chunks', sliceLoop 3 fuel p chunks = some (buf', chunks') ∧
          chunks'.length = chunks.length + k ∧ buf'.length + k * 3 = p.length ∧
          k ≤ (p.length + 3 - 1) / 3 :=
  ⟨by decide, chunkText_terminates 3 (by decide)⟩

/-- C19, at an input where it fails: with `maxChars = 1` the paragraph `a b`
is sliced into `a`, a space and `b`; the slices are pushed trimmed and without
the test `if (buf)` of the other two pushes, so the second chunk is the empty
string. -/
theorem chunkText_empty_chunk :
    chunkText (lit "a b") 1 = some [lit "a", [], lit "b"] := by
  decide

/-- C17, at an input where it fails: the file holds the valid JSON text `{}`.
`JSON.parse` returns the object without fields, `loadStore` returns it and not
the empty store, and the upload of `alpha`, which succeeds on the empty store,
ends in the `catch` block with a `TypeError` (`store.df` is undefined) before
`saveStore` is reached, whatever `fs.writeFileSync` would do. -/
theorem loadStore_keeps_bare_object :
    loadStore (.object { docs := none, chunks := none, df := none, totalChunks := none })
        ≠ Loaded.ofStore emptyStore ∧
      (∀ write : Upload.WriteOutcome,
        Upload.handlerOn asciiLower (fun n => [n]) (lit "a.txt") (lit "t0") write
            (.object { docs := none, chunks := none, df := none, totalChunks := none })
            (lit "alpha")
          = some (.typeError,
              .object { docs := none, chunks := none, df := none, totalChunks := none })) ∧
      (Upload.handler asciiLower (fun n => [n]) (lit "a.txt") (lit "t0") emptyStore
          (lit "alpha")).map (fun rs => rs.1)
        = some (.ok [0] (lit "a.txt") 1) := by
  refine ⟨by decide, ?_, by decide⟩
  intro write
  cases write <;> rfl

/-- C20: for a chunk whose stored term frequencies are not negative (`null`
counting as 0), the score recorded for the chunk, which is the cosine quotient
over the real numbers and 0 when the quotient is `NaN`, is at least 0 and less
than 1, for every store and every message. -/
theorem score_in_unit_interval (lower : Str → Str) (store : Store) (message : Str)
    (chunk : ChunkRecord) (htf : ∀ kv ∈ chunk.tf, 0 ≤ Chat.tfNumber kv.2) :
    0 ≤ (Chat.scoreChunk (Chat.computeQueryTfIdf (tokenize lower message) store) store
        chunk).score ∧
      (Chat.scoreChunk (Chat.computeQueryTfIdf (tokenize lower message) store) store
        chunk).score < 1 :=
  scoreChunk_bounds (tokenize lower message) store chunk htf

theorem score_in_unit_interval_witness :
    (∀ kv ∈ oneChunkRecord.tf, 0 ≤ Chat.tfNumber kv.2) ∧
      0 ≤ (Chat.scoreChunk
        (Chat.computeQueryTfIdf (tokenize asciiLower (lit "zephyrquartz")) oneChunkStore)
        oneChunkStore oneChunkRecord).score ∧
      (Chat.scoreChunk
        (Chat.computeQueryTfIdf (tokenize asciiLower (lit "zephyrquartz")) oneChunkStore)
        oneChunkStore oneChunkRecord).score < 1 :=
  ⟨tfNumber_oneChunkRecord,
    score_in_unit_interval asciiLower oneChunkStore (lit "zephyrquartz") oneChunkRecord
      tfNumber_oneChunkRecord⟩

end AuroraQuest
